import Mathlib

/-!
# Concurrent order engine: sequencing, reorder-commit buffer, bounded queue

A shallow embedding of `include/order.hpp`, `include/order_engine.hpp`,
`src/order_engine.cpp`, `include/bounded_queue.hpp` and `include/thread_pool.hpp`.

Modelling conventions.

* Every public method of `OrderEngine` and `BoundedQueue` runs under the
  object's mutex, so each call is one atomic transition of the object's state;
  a method is a function from the state before the call to the state after it.
  `cv_.notify_all()` changes no field and does not appear.
* `std::uint64_t`, `std::size_t` counters are `Nat`: every counter moves by one per call,
  so wrap-around needs 2^64 calls. `std::int64_t` values are `Int`, and the two
  statements that add to a position, `pos += o.qty` and `pos -= o.qty`, reduce the result
  to the 64-bit two's-complement range (`wrap64`), which is what the compiled code stores
  when the sum leaves the range.
* `double` is an arbitrary carrier `D` with the operations the engine applies to it
  (`Float64`): no law of arithmetic is assumed, so every statement holds in particular
  for IEEE-754 binary64 with its rounding.
* `std::unordered_map` and `std::map` are finite maps (`Finmap`): equal exactly when
  they hold the same entries.
-/

namespace ConcurrentOrders

/-! ## order.hpp -/

/-- The side of an order, `enum class Side`. -/
inductive Side where
  | Buy
  | Sell
  deriving DecidableEq, Repr

/-- The operations on `double` that the engine uses: the literal `0.0`,
`static_cast<double>` from `std::int64_t`, `+` and `*`. -/
class Float64 (D : Type) where
  zero : D
  ofInt : Int → D
  add : D → D → D
  mul : D → D → D

/-- Whole-number arithmetic as a carrier for `double`: binary64 arithmetic is exact on
integers of magnitude below 2^53, so on inputs whose prices are such whole numbers the
source computes these values. -/
instance wholeFloat64 : Float64 Int where
  zero := 0
  ofInt := id
  add := Int.add
  mul := Int.mul

/-- An order, `struct Order`, with the defaults of its member initialisers. -/
structure Order (D : Type) [Float64 D] where
  seq : Nat := 0
  ts : Int := 0
  symbol : String := ""
  side : Side := Side.Buy
  qty : Int := 0
  price : D := Float64.zero
  deriving DecidableEq

/-! ## order_engine.hpp -/

/-- The snapshot returned by `summary()`, `struct EngineSummary`. -/
structure EngineSummary (D : Type) where
  submitted : Nat
  processed : Nat
  committed : Nat
  total_notional : D
  net_position : Finmap (fun _ : String => Int)

/-- The data members of `class OrderEngine` (the mutex and the condition variable hold
no data). The defaults are the member initialisers. -/
structure OrderEngine (D : Type) [Float64 D] where
  next_seq : Nat := 1
  submitted : Nat := 0
  processed : Nat := 0
  next_commit_seq : Nat := 1
  ready : Finmap (fun _ : Nat => Order D) := ∅
  total_notional : D := Float64.zero
  net_pos : Finmap (fun _ : String => Int) := ∅
  committed : List (Order D) := []

variable {D : Type} [Float64 D]

/-- A default-constructed engine, `OrderEngine() = default`. -/
def OrderEngine.fresh : OrderEngine D := {}

/-- The unordered-map member `emplace(k, v)`: inserts only when the key is absent. -/
def emplace (m : Finmap (fun _ : Nat => Order D)) (k : Nat) (v : Order D) :
    Finmap (fun _ : Nat => Order D) :=
  if k ∈ m then m else m.insert k v

/-! ## order_engine.cpp -/

/-- Method `OrderEngine::assign_seq`: stamps the order with the value `fetch_add` returns
(the counter before the increment) and counts the submission. Returns the stamped order
and the engine after the call. -/
def OrderEngine.assign_seq (e : OrderEngine D) (o : Order D) : Order D × OrderEngine D :=
  ({ o with seq := e.next_seq },
   { e with next_seq := e.next_seq + 1, submitted := e.submitted + 1 })

/-- The value a `std::int64_t` holds after an addition or subtraction whose exact result
is `x`: `x` reduced modulo 2^64 to the range from -2^63 to 2^63 - 1. -/
def wrap64 (x : Int) : Int :=
  (x + 9223372036854775808) % 18446744073709551616 - 9223372036854775808

/-- One pass through the body of the `while` loop of `try_commit_locked`, for the entry
`o` found under `next_commit_seq_`. The position is a `std::int64_t`: `pos += o.qty` and
`pos -= o.qty` store the sum or difference reduced to its range. -/
def OrderEngine.commit_one (e : OrderEngine D) (o : Order D) : OrderEngine D :=
  { e with
    total_notional := Float64.add e.total_notional (Float64.mul (Float64.ofInt o.qty) o.price)
    net_pos :=
      let pos := (e.net_pos.lookup o.symbol).getD 0
      e.net_pos.insert o.symbol
        (if o.side = Side.Buy then wrap64 (pos + o.qty) else wrap64 (pos - o.qty))
    committed := e.committed ++ [o]
    ready := e.ready.erase e.next_commit_seq
    next_commit_seq := e.next_commit_seq + 1 }

/-- The `while (true)` loop of `try_commit_locked`, with a bound on the number of
passes: a pass either leaves through `break` or runs the body. -/
def OrderEngine.commit_loop : Nat → OrderEngine D → OrderEngine D
  | 0, e => e
  | fuel + 1, e =>
    match e.ready.lookup e.next_commit_seq with
    | none => e
    | some o => commit_loop fuel (e.commit_one o)

/-- Method `OrderEngine::try_commit_locked`. Each pass erases one entry of `ready_`, so
the number of entries bounds the number of passes: the loop always leaves through its
`break` (`try_commit_locked_exit`) and a larger bound gives the same result
(`commit_loop_fuel`). -/
def OrderEngine.try_commit_locked (e : OrderEngine D) : OrderEngine D :=
  OrderEngine.commit_loop e.ready.keys.card e

/-- Method `OrderEngine::on_processed`. -/
def OrderEngine.on_processed (e : OrderEngine D) (o : Order D) : OrderEngine D :=
  OrderEngine.try_commit_locked
    { e with processed := e.processed + 1, ready := emplace e.ready o.seq o }

/-- The predicate `wait_until_committed(last_seq)` waits for: the call returns in a
state where it holds and blocks in a state where it does not. -/
def OrderEngine.wait_until_committed (e : OrderEngine D) (last_seq : Nat) : Bool :=
  decide (last_seq < e.next_commit_seq)

/-- Method `OrderEngine::summary`. -/
def OrderEngine.summary (e : OrderEngine D) : EngineSummary D :=
  { submitted := e.submitted
    processed := e.processed
    committed := e.committed.length
    total_notional := e.total_notional
    net_position := e.net_pos }

/-- Method `OrderEngine::committed_sample`: the copy it returns (the method is `const`). -/
def OrderEngine.committed_sample (e : OrderEngine D) (n : Nat) : List (Order D) :=
  e.committed.take (min n e.committed.length)

/-- The engine after a sequence of `on_processed` calls, first call first. -/
def OrderEngine.run (e : OrderEngine D) (calls : List (Order D)) : OrderEngine D :=
  calls.foldl OrderEngine.on_processed e

/-- Successive calls of `assign_seq`, one for each order of the list, first order first:
the orders returned, in call order, and the engine after the last call. -/
def OrderEngine.assign_all (e : OrderEngine D) : List (Order D) → List (Order D) × OrderEngine D
  | [] => ([], e)
  | o :: os =>
    let r := e.assign_seq o
    let rest := OrderEngine.assign_all r.2 os
    (r.1 :: rest.1, rest.2)

/-- A state-changing call on the engine. -/
inductive EngineCall (D : Type) [Float64 D] where
  | assign_seq (o : Order D)
  | on_processed (o : Order D)

/-- The engine after one state-changing call. -/
def OrderEngine.call (e : OrderEngine D) : EngineCall D → OrderEngine D
  | EngineCall.assign_seq o => (e.assign_seq o).2
  | EngineCall.on_processed o => e.on_processed o

/-- The engine reached from a fresh one by a sequence of `assign_seq` and `on_processed`
calls in any interleaving, first call first. The other public methods are `const` or only
wait, so these are all the reachable states. -/
def OrderEngine.reach (cs : List (EngineCall D)) : OrderEngine D :=
  cs.foldl OrderEngine.call OrderEngine.fresh

/-- The engine with the two sequencer counters set to given values. -/
def OrderEngine.withCounters (e : OrderEngine D) (a b : Nat) : OrderEngine D :=
  { e with next_seq := a, submitted := b }

/-- The orders passed to `on_processed` in a sequence of calls, in call order. -/
def processedOf : List (EngineCall D) → List (Order D)
  | [] => []
  | EngineCall.assign_seq _ :: cs => processedOf cs
  | EngineCall.on_processed o :: cs => o :: processedOf cs

/-- The number of `assign_seq` calls in a sequence of calls. -/
def assignedOf : List (EngineCall D) → Nat
  | [] => 0
  | EngineCall.assign_seq _ :: cs => assignedOf cs + 1
  | EngineCall.on_processed _ :: cs => assignedOf cs

/-! ## Quantities the claims compare the engine with -/

/-- Left-to-right sum of `qty * price` over a log. -/
def notionalOf (log : List (Order D)) : D :=
  log.foldl (fun t o => Float64.add t (Float64.mul (Float64.ofInt o.qty) o.price)) Float64.zero

/-- The signed quantity of an order: `+qty` for Buy, `-qty` for Sell. -/
def signedQty (o : Order D) : Int :=
  match o.side with
  | Side.Buy => o.qty
  | Side.Sell => -o.qty

/-- The position of a symbol over a log: no entry when the log has no order of that
symbol, else the exact sum (in the integers) of the signed quantities of its orders. -/
def positionOf (log : List (Order D)) (sym : String) : Option Int :=
  if log.any (fun o => o.symbol = sym) then
    some ((log.filter (fun o => o.symbol = sym)).map signedQty).sum
  else none

/-- The orders of a list arranged by ascending `seq`. -/
def sortBySeq (l : List (Order D)) : List (Order D) :=
  l.insertionSort (fun a b => a.seq ≤ b.seq)

/-- The aggregate state of the engine: `next_commit_seq`, `total_notional`, `net_position`
and the committed log. -/
def OrderEngine.aggregate (e : OrderEngine D) :
    Nat × D × Finmap (fun _ : String => Int) × List (Order D) :=
  (e.next_commit_seq, e.total_notional, e.net_pos, e.committed)

/-- The length of the run of consecutive keys `k, k + 1, ...` present in a buffer, looking
at `bound` keys at most. -/
def consecutiveRun (m : Finmap (fun _ : Nat => Order D)) : Nat → Nat → Nat
  | _, 0 => 0
  | k, bound + 1 => if k ∈ m then consecutiveRun m (k + 1) bound + 1 else 0

/-- The length of the maximal run of consecutive keys `next_commit_seq`,
`next_commit_seq + 1`, ... present in the holding buffer. A run cannot be longer than the
buffer has entries (`maximalRun_spec`). -/
def maximalRun (e : OrderEngine D) : Nat :=
  consecutiveRun e.ready e.next_commit_seq e.ready.keys.card

/-! ## Invariants of the engine state -/

/-- The invariant of the engine state: the log holds the sequence numbers
`1, ..., next_commit_seq - 1` in this order, every buffered order sits under its own
sequence number, and the aggregates are those of the log, a position being the sum of
the signed quantities reduced to the range of `std::int64_t`. -/
structure Inv (e : OrderEngine D) : Prop where
  pos : 1 ≤ e.next_commit_seq
  seqs : e.committed.map (fun o => o.seq) = List.range' 1 (e.next_commit_seq - 1)
  keyed : ∀ k o, e.ready.lookup k = some o → o.seq = k
  total : e.total_notional = notionalOf e.committed
  position : ∀ sym, e.net_pos.lookup sym = (positionOf e.committed sym).map wrap64

/-- How the state after a run relates to the calls made: an order passed with a sequence
number at or beyond the commit frontier is in the buffer, every logged or buffered order
was passed to `on_processed`, and `processed_` counts the calls. -/
structure Traced (calls : List (Order D)) (e : OrderEngine D) : Prop where
  held : ∀ o ∈ calls, e.next_commit_seq ≤ o.seq → o.seq ∈ e.ready
  committed_sub : ∀ o ∈ e.committed, o ∈ calls
  ready_sub : ∀ k o, e.ready.lookup k = some o → o ∈ calls
  processed_eq : e.processed = calls.length
  next_seq_eq : e.next_seq = 1
  submitted_eq : e.submitted = 0

/-- Two engine states with the same aggregate state whose buffers agree from the commit
frontier on: such states differ at most in `processed_`, in the sequencer counters and in
buffer entries below the frontier. -/
structure AggEq (e e' : OrderEngine D) : Prop where
  next : e.next_commit_seq = e'.next_commit_seq
  total : e.total_notional = e'.total_notional
  net : e.net_pos = e'.net_pos
  log : e.committed = e'.committed
  buffer : ∀ k, e.next_commit_seq ≤ k → e.ready.lookup k = e'.ready.lookup k

/-! ## bounded_queue.hpp

A call of `push` or `pop` first waits on a condition variable for its predicate, then
runs the rest of the body under the mutex. A method is a function of the queue state at
the moment the call takes the mutex with its predicate true; it returns `none` in a state
where the predicate is false, in which the call stays blocked and changes nothing. -/

/-- The data members of `class BoundedQueue<T>` (the mutex and the condition variables
hold no data). -/
structure BoundedQueue (T : Type) where
  cap : Nat
  q : List T := []
  closed : Bool := false
  deriving DecidableEq

/-- Results of `BoundedQueue::push` and `BoundedQueue::pop` pair the value returned with
the queue after the call. -/
abbrev Returned (R T : Type) := Option (R × BoundedQueue T)

/-- The constructor `BoundedQueue(capacity)`. -/
def BoundedQueue.init {T : Type} (capacity : Nat) : BoundedQueue T := { cap := capacity }

/-- Method `BoundedQueue::push`: waits for `closed_ || q_.size() < cap_`; returns `false`
when closed, else appends the item at the back and returns `true`. -/
def BoundedQueue.push {T : Type} (s : BoundedQueue T) (item : T) : Returned Bool T :=
  if s.closed || decide (s.q.length < s.cap) then
    if s.closed then some (false, s)
    else some (true, { s with q := s.q ++ [item] })
  else none

/-- Method `BoundedQueue::pop`: waits for `closed_ || !q_.empty()`; returns `std::nullopt`
when the queue is empty, else removes the front item and returns it. -/
def BoundedQueue.pop {T : Type} (s : BoundedQueue T) : Returned (Option T) T :=
  if s.closed || !s.q.isEmpty then
    match s.q with
    | [] => some (none, s)
    | item :: rest => some (some item, { s with q := rest })
  else none

/-- Method `BoundedQueue::close`. -/
def BoundedQueue.close {T : Type} (s : BoundedQueue T) : BoundedQueue T :=
  { s with closed := true }

/-- Successive `pop` calls by one caller, at most `n` of them: the values returned, in
call order, and the queue afterwards. A call that blocks ends the sequence. -/
def BoundedQueue.pop_many {T : Type} : Nat → BoundedQueue T → List (Option T) × BoundedQueue T
  | 0, s => ([], s)
  | n + 1, s =>
    match s.pop with
    | none => ([], s)
    | some (r, s') =>
      let rest := BoundedQueue.pop_many n s'
      (r :: rest.1, rest.2)

/-- A call on the queue. -/
inductive QueueOp (T : Type) where
  | push (item : T)
  | pop
  | close
  deriving DecidableEq

/-- A queue together with its history: the items whose `push` returned `true`, in push
order, and the items returned by `pop`, in pop order. -/
structure QueueTrace (T : Type) where
  state : BoundedQueue T
  accepted : List T := []
  popped : List T := []
  deriving DecidableEq

/-- One call on a queue with history. A call whose wait predicate is false in the current
state does not take place. -/
def QueueTrace.step {T : Type} (h : QueueTrace T) : QueueOp T → QueueTrace T
  | QueueOp.push item =>
    match h.state.push item with
    | none => h
    | some (true, s') => { h with state := s', accepted := h.accepted ++ [item] }
    | some (false, s') => { h with state := s' }
  | QueueOp.pop =>
    match h.state.pop with
    | none => h
    | some (some item, s') => { h with state := s', popped := h.popped ++ [item] }
    | some (none, s') => { h with state := s' }
  | QueueOp.close => { h with state := h.state.close }

/-- A sequence of calls on a fresh queue of the given capacity, first call first. -/
def QueueTrace.run {T : Type} (capacity : Nat) (ops : List (QueueOp T)) : QueueTrace T :=
  ops.foldl QueueTrace.step { state := BoundedQueue.init capacity }

/-! ## thread_pool.hpp

The pool's methods take no lock of their own. A method is a function of the pool state at
the call, no other call on the pool running in between; `stop()` returns in the state where
every worker it joined has left its loop. -/

/-- The data members of `class ThreadPool`: the task queue, the workers (their number,
and whether they have been joined, so that none is `joinable()`), the `stopped_` flag.
The field `ran` is not a member: it records the tasks the workers have run, first run
first. -/
structure ThreadPool (T : Type) where
  tasks : BoundedQueue T
  workers : Nat
  joined : Bool := false
  stopped : Bool := false
  ran : List T := []
  deriving DecidableEq

/-- The constructor `ThreadPool(workers, queue_capacity)`. -/
def ThreadPool.init {T : Type} (workers queue_capacity : Nat) : ThreadPool T :=
  { tasks := BoundedQueue.init queue_capacity, workers := workers }

/-- Method `ThreadPool::submit`: `false` when `stopped_` is set, else what `push` on the
task queue returns (the caller blocks when that `push` blocks). -/
def ThreadPool.submit {T : Type} (p : ThreadPool T) (fn : T) : Option (Bool × ThreadPool T) :=
  if p.stopped then some (false, p)
  else
    match p.tasks.push fn with
    | none => none
    | some (r, q') => some (r, { p with tasks := q' })

/-- The loop of a worker thread (the lambda in `start`), with a bound on the number of
passes: `pop` a task and run it, until `pop` returns the empty sentinel. -/
def ThreadPool.worker_loop {T : Type} : Nat → ThreadPool T → ThreadPool T
  | 0, p => p
  | fuel + 1, p =>
    match p.tasks.pop with
    | none => p
    | some (none, q') => { p with tasks := q' }
    | some (some task, q') =>
      ThreadPool.worker_loop fuel { p with tasks := q', ran := p.ran ++ [task] }

/-- Method `ThreadPool::stop`: nothing when `stopped_` was already set (the
`compare_exchange_strong` fails); else sets the flag, closes the queue and joins the
workers, which run the tasks still queued and leave their loops (`stop_drains`). -/
def ThreadPool.stop {T : Type} (p : ThreadPool T) : ThreadPool T :=
  if p.stopped then p
  else
    let p1 := { p with stopped := true, tasks := p.tasks.close }
    if p1.workers = 0 ∨ p1.joined = true then p1
    else { ThreadPool.worker_loop (p1.tasks.q.length + 1) p1 with joined := true }

/-! ## The orders of tests/test_determinism.cpp -/

/-- Order `a` of the test after `assign_seq`: seq 1, Buy 10 at 100.0 on SYM0. -/
def testA : Order Int := { seq := 1, symbol := "SYM0", side := Side.Buy, qty := 10, price := 100 }

/-- Order `b` of the test after `assign_seq`: seq 2, Sell 3 at 100.0 on SYM0. -/
def testB : Order Int := { seq := 2, symbol := "SYM0", side := Side.Sell, qty := 3, price := 100 }

/-- Order `c` of the test after `assign_seq`: seq 3, Buy 1 at 100.0 on SYM0. -/
def testC : Order Int := { seq := 3, symbol := "SYM0", side := Side.Buy, qty := 1, price := 100 }

/-- The test as written: three `assign_seq` calls on a fresh engine for the orders
`a`, `b`, `c` (not yet stamped), then `on_processed` for `b`, `a`, `c`, then `summary()`. -/
def testDeterminism : EngineSummary Int :=
  let ra := (OrderEngine.fresh : OrderEngine Int).assign_seq { testA with seq := 0 }
  let rb := ra.2.assign_seq { testB with seq := 0 }
  let rc := rb.2.assign_seq { testC with seq := 0 }
  (((rc.2.on_processed rb.1).on_processed ra.1).on_processed rc.1).summary

/-- An order with `seq` 1, Buy of the largest `std::int64_t` quantity, 2^63 - 1, at 1.0 on
SYM0. -/
def testMaxBuy : Order Int :=
  { seq := 1, symbol := "SYM0", side := Side.Buy, qty := 9223372036854775807, price := 1 }

/-- An order with `seq` 2, Buy 1 at 1.0 on SYM0. -/
def testOneBuy : Order Int :=
  { seq := 2, symbol := "SYM0", side := Side.Buy, qty := 1, price := 1 }

/-- An order with `seq` 4, Buy 1 at 100.0 on SYM0. -/
def testFar : Order Int := { testC with seq := 4 }

/-- An engine state with orders held under the keys 1, 2 and 4. -/
def testHeld : OrderEngine Int :=
  { ready := emplace (emplace (emplace ∅ 4 { testC with seq := 4 }) 2 testB) 1 testA }

/-- A running pool with two workers, capacity 4 and the tasks 5, 6 queued. -/
def testPool : ThreadPool Nat := { tasks := { cap := 4, q := [5, 6] }, workers := 2 }

/-! ## The commit loop -/

/-- The loop stops at once when the buffer has no entry for `next_commit_seq_`. -/
theorem commit_loop_none (fuel : Nat) (e : OrderEngine D)
    (h : e.ready.lookup e.next_commit_seq = none) : OrderEngine.commit_loop fuel e = e := by
  cases fuel with
  | zero => rfl
  | succ n => simp [OrderEngine.commit_loop, h]

/-- The loop runs its body when the buffer has an entry for `next_commit_seq_`. -/
theorem commit_loop_some (fuel : Nat) (e : OrderEngine D) (o : Order D)
    (h : e.ready.lookup e.next_commit_seq = some o) :
    OrderEngine.commit_loop (fuel + 1) e = OrderEngine.commit_loop fuel (e.commit_one o) := by
  simp [OrderEngine.commit_loop, h]

/-- A pass of the loop body removes one entry of the buffer. -/
theorem commit_one_card (e : OrderEngine D) (o : Order D)
    (h : e.ready.lookup e.next_commit_seq = some o) :
    (e.commit_one o).ready.keys.card + 1 = e.ready.keys.card := by
  have hm : e.next_commit_seq ∈ e.ready.keys :=
    Finmap.mem_keys.2 (Finmap.mem_iff.2 ⟨o, h⟩)
  have hc : (e.commit_one o).ready.keys.card = e.ready.keys.card - 1 := by
    simp only [OrderEngine.commit_one, Finmap.keys_erase]
    exact Finset.card_erase_of_mem hm
  have hpos : 0 < e.ready.keys.card := Finset.card_pos.2 ⟨_, hm⟩
  omega

/-- A property kept by every pass of the loop body is kept by the loop. -/
theorem commit_loop_preserves (P : OrderEngine D → Prop)
    (hstep : ∀ e o, P e → e.ready.lookup e.next_commit_seq = some o → P (e.commit_one o)) :
    ∀ (fuel : Nat) (e : OrderEngine D), P e → P (OrderEngine.commit_loop fuel e)
  | 0, e, h => by simpa [OrderEngine.commit_loop] using h
  | fuel + 1, e, h => by
    cases hl : e.ready.lookup e.next_commit_seq with
    | none => rw [commit_loop_none _ _ hl]; exact h
    | some o =>
      rw [commit_loop_some _ _ _ hl]
      exact commit_loop_preserves P hstep fuel _ (hstep e o h hl)

/-- With at least as many passes allowed as `ready_` has entries, the loop leaves through
its `break`: the buffer of the result has no entry for the result's `next_commit_seq_`. -/
theorem commit_loop_exit :
    ∀ (fuel : Nat) (e : OrderEngine D), e.ready.keys.card ≤ fuel →
      (OrderEngine.commit_loop fuel e).ready.lookup
        (OrderEngine.commit_loop fuel e).next_commit_seq = none
  | 0, e, h => by
    have h0 : e.ready.keys = ∅ := Finset.card_eq_zero.1 (Nat.le_zero.1 h)
    have hn : e.next_commit_seq ∉ e.ready := by
      intro hm
      have hk := Finmap.mem_keys.2 hm
      rw [h0] at hk
      exact absurd hk (Finset.not_mem_empty _)
    simpa [OrderEngine.commit_loop] using Finmap.lookup_eq_none.2 hn
  | fuel + 1, e, h => by
    cases hl : e.ready.lookup e.next_commit_seq with
    | none => rw [commit_loop_none _ _ hl]; exact hl
    | some o =>
      rw [commit_loop_some _ _ _ hl]
      have hc := commit_one_card e o hl
      exact commit_loop_exit fuel _ (by omega)

/-- Allowing more passes than `ready_` has entries changes nothing: the bound in
`try_commit_locked` never cuts the loop short. -/
theorem commit_loop_fuel :
    ∀ (fuel : Nat) (e : OrderEngine D), e.ready.keys.card ≤ fuel →
      OrderEngine.commit_loop fuel e = e.try_commit_locked
  | 0, e, h => by
    have h0 : e.ready.keys.card = 0 := Nat.le_zero.1 h
    simp [OrderEngine.try_commit_locked, h0]
  | fuel + 1, e, h => by
    unfold OrderEngine.try_commit_locked
    cases hl : e.ready.lookup e.next_commit_seq with
    | none => rw [commit_loop_none _ _ hl, commit_loop_none _ _ hl]
    | some o =>
      have hc := commit_one_card e o hl
      rw [← hc, commit_loop_some _ _ _ hl, commit_loop_some _ _ _ hl,
        commit_loop_fuel fuel _ (by omega)]
      rfl

/-- The loop of `try_commit_locked` ends through its `break`. -/
theorem try_commit_locked_exit (e : OrderEngine D) :
    e.try_commit_locked.ready.lookup e.try_commit_locked.next_commit_seq = none :=
  commit_loop_exit _ e (le_refl _)

/-- A run of calls extended by one more call. -/
theorem run_concat (e : OrderEngine D) (calls : List (Order D)) (o : Order D) :
    e.run (calls ++ [o]) = (e.run calls).on_processed o := by
  simp [OrderEngine.run, List.foldl_append]

/-! ## Invariants of the engine -/

/-- An entry found in the buffer after `emplace` was there before or is the new one. -/
theorem lookup_emplace {m : Finmap (fun _ : Nat => Order D)} {k k' : Nat} {v o : Order D}
    (h : (emplace m k v).lookup k' = some o) : m.lookup k' = some o ∨ (k' = k ∧ o = v) := by
  unfold emplace at h
  split at h
  · exact Or.inl h
  · by_cases hk : k' = k
    · subst hk
      rw [Finmap.lookup_insert] at h
      exact Or.inr ⟨rfl, (Option.some.inj h).symm⟩
    · rw [Finmap.lookup_insert_of_ne _ hk] at h
      exact Or.inl h

/-- After `emplace` the key is present, and every key present before still is. -/
theorem mem_emplace {m : Finmap (fun _ : Nat => Order D)} {k k' : Nat} {v : Order D} :
    k' ∈ emplace m k v ↔ k' = k ∨ k' ∈ m := by
  unfold emplace
  split
  · next hk =>
    constructor
    · exact Or.inr
    · rintro (rfl | h)
      · exact hk
      · exact h
  · exact Finmap.mem_insert

/-- The notional of a log extended by one order. -/
theorem notionalOf_concat (log : List (Order D)) (o : Order D) :
    notionalOf (log ++ [o])
      = Float64.add (notionalOf log) (Float64.mul (Float64.ofInt o.qty) o.price) := by
  simp [notionalOf, List.foldl_append]

/-- The position of a symbol over a log extended by one order. -/
theorem positionOf_concat (log : List (Order D)) (o : Order D) (sym : String) :
    positionOf (log ++ [o]) sym =
      if o.symbol = sym then some ((positionOf log sym).getD 0 + signedQty o)
      else positionOf log sym := by
  unfold positionOf
  by_cases hs : o.symbol = sym
  · by_cases hl : log.any (fun o => o.symbol = sym) = true
    · simp [hs, hl, List.filter_append, List.filter_cons]
    · have hf : log.filter (fun o => decide (o.symbol = sym)) = [] := by
        rw [List.filter_eq_nil_iff]
        intro a ha hsa
        exact hl (List.any_eq_true.2 ⟨a, ha, hsa⟩)
      simp [hs, hl, hf, List.filter_append, List.filter_cons]
  · simp [hs, List.filter_append, List.filter_cons]

/-- What one pass of the loop body writes into the position of the order's symbol. -/
theorem commit_one_pos (pos : Int) (o : Order D) :
    (if o.side = Side.Buy then pos + o.qty else pos - o.qty) = pos + signedQty o := by
  unfold signedQty
  cases o.side <;> simp [Int.sub_eq_add_neg]

/-- Reducing to the range of `std::int64_t` after each addition gives the reduced sum. -/
theorem wrap64_add (a b : Int) : wrap64 (wrap64 a + b) = wrap64 (a + b) := by
  unfold wrap64
  omega

/-- A value in the range of `std::int64_t` is stored as it is. -/
theorem wrap64_of_range (x : Int) (h1 : -9223372036854775808 ≤ x)
    (h2 : x < 9223372036854775808) : wrap64 x = x := by
  unfold wrap64
  omega

/-- What one pass of the loop body stores as the position of the order's symbol. -/
theorem commit_one_pos_wrap (pos : Int) (o : Order D) :
    (if o.side = Side.Buy then wrap64 (pos + o.qty) else wrap64 (pos - o.qty))
      = wrap64 (pos + signedQty o) := by
  rw [← commit_one_pos]
  split <;> rfl

/-- A fresh engine satisfies the invariant. -/
theorem inv_fresh : Inv (OrderEngine.fresh : OrderEngine D) where
  pos := le_refl _
  seqs := rfl
  keyed := by intro k o h; simp [OrderEngine.fresh] at h
  total := rfl
  position := by intro sym; simp [OrderEngine.fresh, positionOf]

/-- One pass of the loop body keeps the invariant. -/
theorem inv_commit_one (e : OrderEngine D) (o : Order D) (h : Inv e)
    (ho : e.ready.lookup e.next_commit_seq = some o) : Inv (e.commit_one o) where
  pos := by simp [OrderEngine.commit_one]
  seqs := by
    have hseq : o.seq = e.next_commit_seq := h.keyed _ _ ho
    have hp := h.pos
    obtain ⟨m, hm⟩ : ∃ m, e.next_commit_seq = m + 1 := ⟨e.next_commit_seq - 1, by omega⟩
    have hs := h.seqs
    simp only [OrderEngine.commit_one, List.map_append, List.map_cons, List.map_nil, hs, hseq]
    rw [hm]
    simp [List.range'_concat, Nat.add_comm]
  keyed := by
    intro k o' hk
    simp only [OrderEngine.commit_one] at hk
    by_cases hkn : k = e.next_commit_seq
    · subst hkn
      rw [Finmap.lookup_erase] at hk
      exact absurd hk (by simp)
    · rw [Finmap.lookup_erase_ne hkn] at hk
      exact h.keyed k o' hk
  total := by
    simp only [OrderEngine.commit_one, notionalOf_concat, h.total]
  position := by
    intro sym
    simp only [OrderEngine.commit_one]
    rw [positionOf_concat, commit_one_pos_wrap]
    by_cases hs : o.symbol = sym
    · subst hs
      rw [Finmap.lookup_insert, h.position, if_pos rfl]
      cases positionOf e.committed o.symbol with
      | none => rfl
      | some p =>
        show some (wrap64 (wrap64 p + signedQty o)) = some (wrap64 (p + signedQty o))
        rw [wrap64_add]
    · rw [Finmap.lookup_insert_of_ne _ (Ne.symm hs), h.position, if_neg hs]

/-- The function `on_processed` keeps the invariant. -/
theorem inv_on_processed (e : OrderEngine D) (o : Order D) (h : Inv e) :
    Inv (e.on_processed o) := by
  unfold OrderEngine.on_processed OrderEngine.try_commit_locked
  apply commit_loop_preserves Inv inv_commit_one
  exact
    { pos := h.pos
      seqs := h.seqs
      keyed := by
        intro k o' hk
        rcases lookup_emplace hk with h1 | ⟨h1, h2⟩
        · exact h.keyed k o' h1
        · rw [h1, h2]
      total := h.total
      position := h.position }

/-- Every state reached from a fresh engine by `on_processed` calls satisfies the
invariant. -/
theorem inv_run (calls : List (Order D)) :
    Inv ((OrderEngine.fresh : OrderEngine D).run calls) := by
  induction calls using List.reverseRecOn with
  | nil => exact inv_fresh
  | append_singleton l o ih => rw [run_concat]; exact inv_on_processed _ o ih

/-- One pass of the loop body keeps the relation to the calls made. -/
theorem traced_commit_one (calls : List (Order D)) (e : OrderEngine D) (o : Order D)
    (h : Traced calls e) (ho : e.ready.lookup e.next_commit_seq = some o) :
    Traced calls (e.commit_one o) where
  held := by
    intro o' ho' hle
    simp only [OrderEngine.commit_one] at hle ⊢
    exact Finmap.mem_erase.2 ⟨by omega, h.held o' ho' (by omega)⟩
  committed_sub := by
    intro o' ho'
    simp only [OrderEngine.commit_one, List.mem_append, List.mem_singleton] at ho'
    rcases ho' with h1 | h1
    · exact h.committed_sub o' h1
    · rw [h1]; exact h.ready_sub _ _ ho
  ready_sub := by
    intro k o' hk
    simp only [OrderEngine.commit_one] at hk
    by_cases hkn : k = e.next_commit_seq
    · subst hkn
      rw [Finmap.lookup_erase] at hk
      exact absurd hk (by simp)
    · rw [Finmap.lookup_erase_ne hkn] at hk
      exact h.ready_sub k o' hk
  processed_eq := h.processed_eq
  next_seq_eq := h.next_seq_eq
  submitted_eq := h.submitted_eq

/-- The function `on_processed` keeps the relation to the calls made. -/
theorem traced_on_processed (calls : List (Order D)) (e : OrderEngine D) (o : Order D)
    (h : Traced calls e) : Traced (calls ++ [o]) (e.on_processed o) := by
  unfold OrderEngine.on_processed OrderEngine.try_commit_locked
  apply commit_loop_preserves (Traced (calls ++ [o])) (traced_commit_one (calls ++ [o]))
  exact
    { held := by
        intro o' ho' hle
        simp only [List.mem_append, List.mem_singleton] at ho'
        rcases ho' with h1 | h1
        · exact mem_emplace.2 (Or.inr (h.held o' h1 hle))
        · rw [h1]; exact mem_emplace.2 (Or.inl rfl)
      committed_sub := by
        intro o' ho'
        exact List.mem_append_left _ (h.committed_sub o' ho')
      ready_sub := by
        intro k o' hk
        rcases lookup_emplace hk with h1 | ⟨_, h2⟩
        · exact List.mem_append_left _ (h.ready_sub k o' h1)
        · rw [h2]; simp
      processed_eq := by simp [h.processed_eq]
      next_seq_eq := h.next_seq_eq
      submitted_eq := h.submitted_eq }

/-- Every state reached from a fresh engine is related to the calls that led to it. -/
theorem traced_run (calls : List (Order D)) :
    Traced calls ((OrderEngine.fresh : OrderEngine D).run calls) := by
  induction calls using List.reverseRecOn with
  | nil =>
    exact
      { held := by intro o ho; simp at ho
        committed_sub := by intro o ho; simp [OrderEngine.run, OrderEngine.fresh] at ho
        ready_sub := by intro k o hk; simp [OrderEngine.run, OrderEngine.fresh] at hk
        processed_eq := rfl
        next_seq_eq := rfl
        submitted_eq := rfl }
  | append_singleton l o ih => rw [run_concat]; exact traced_on_processed l _ o ih

/-- In every state reached from a fresh engine the buffer has no entry for
`next_commit_seq_`: the commit loop has run to its `break`. -/
theorem run_exit (calls : List (Order D)) :
    ((OrderEngine.fresh : OrderEngine D).run calls).ready.lookup
      ((OrderEngine.fresh : OrderEngine D).run calls).next_commit_seq = none := by
  induction calls using List.reverseRecOn with
  | nil => simp [OrderEngine.run, OrderEngine.fresh]
  | append_singleton l o _ =>
    rw [run_concat]
    exact try_commit_locked_exit _

/-- The first `m` numbers of a run of consecutive numbers. -/
theorem take_range_from (s m n : Nat) :
    (List.range' s n).take m = List.range' s (min m n) := by
  rcases Nat.le_total m n with h | h
  · obtain ⟨d, rfl⟩ : ∃ d, n = d + m := ⟨n - m, by omega⟩
    rw [← List.range'_append_1, Nat.min_eq_left h]
    exact List.take_left' (List.length_range' s 1 m)
  · rw [Nat.min_eq_right h]
    exact List.take_of_length_le (by rw [List.length_range']; exact h)

/-- Under the invariant the log has `next_commit_seq - 1` entries. -/
theorem Inv.length_committed {e : OrderEngine D} (h : Inv e) :
    e.committed.length + 1 = e.next_commit_seq := by
  have hl := congrArg List.length h.seqs
  have hp := h.pos
  simp only [List.length_map, List.length_range'] at hl
  omega

/-- Under the invariant a sequence number is in the log exactly when it lies in
`1, ..., next_commit_seq - 1`. -/
theorem Inv.mem_committed {e : OrderEngine D} (h : Inv e) (s : Nat) :
    s ∈ e.committed.map (fun o => o.seq) ↔ 1 ≤ s ∧ s < e.next_commit_seq := by
  have hp := h.pos
  rw [h.seqs, List.mem_range'_1]
  omega

/-- The commit frontier has passed `n` exactly when every sequence number from 1 to `n`
has been passed to `on_processed`. -/
theorem frontier_iff (calls : List (Order D)) (n : Nat) :
    n < ((OrderEngine.fresh : OrderEngine D).run calls).next_commit_seq
      ↔ ∀ s : Nat, 1 ≤ s → s ≤ n → s ∈ calls.map (fun o => o.seq) := by
  have hi : Inv ((OrderEngine.fresh : OrderEngine D).run calls) := inv_run calls
  have ht := traced_run calls
  have hx := run_exit calls
  have hp := hi.pos
  constructor
  · intro hlt s h1 h2
    obtain ⟨o, ho, hs⟩ := List.mem_map.1 ((hi.mem_committed s).2 ⟨h1, by omega⟩)
    exact List.mem_map.2 ⟨o, ht.committed_sub o ho, hs⟩
  · intro hall
    by_contra hge
    obtain ⟨o, ho, hs⟩ := List.mem_map.1 (hall _ hp (by omega))
    have hmem := ht.held o ho (by omega)
    rw [hs] at hmem
    exact (Finmap.lookup_eq_none.1 hx) hmem

/-! ## Runs over pairwise distinct sequence numbers -/

/-- The key set after inserting into a finite map. -/
theorem keys_insert_eq (m : Finmap (fun _ : Nat => Order D)) (k : Nat) (v : Order D) :
    (m.insert k v).keys = insert k m.keys := by
  ext a
  rw [Finmap.mem_keys, Finmap.mem_insert, Finset.mem_insert, Finmap.mem_keys]

/-- The function `emplace` with an absent key adds one entry. -/
theorem card_emplace_new (m : Finmap (fun _ : Nat => Order D)) (k : Nat) (v : Order D)
    (h : k ∉ m) : (emplace m k v).keys.card = m.keys.card + 1 := by
  unfold emplace
  rw [if_neg h, keys_insert_eq]
  exact Finset.card_insert_of_not_mem (fun hk => h (Finmap.mem_keys.1 hk))

/-- The function `emplace` with a present key changes nothing. -/
theorem emplace_present (m : Finmap (fun _ : Nat => Order D)) (k : Nat) (v : Order D)
    (h : k ∈ m) : emplace m k v = m := by
  unfold emplace
  rw [if_pos h]

/-- When the calls carry pairwise distinct sequence numbers, every call is accounted for:
it is in the log or in the buffer. -/
theorem count_run (calls : List (Order D)) (hnd : (calls.map (fun o => o.seq)).Nodup) :
    ((OrderEngine.fresh : OrderEngine D).run calls).processed
      = ((OrderEngine.fresh : OrderEngine D).run calls).committed.length
        + ((OrderEngine.fresh : OrderEngine D).run calls).ready.keys.card := by
  induction calls using List.reverseRecOn with
  | nil => simp [OrderEngine.run, OrderEngine.fresh]
  | append_singleton l o ih =>
    rw [List.map_append, List.nodup_append] at hnd
    obtain ⟨hl, _, hdis⟩ := hnd
    have ih := ih hl
    have hi : Inv ((OrderEngine.fresh : OrderEngine D).run l) := inv_run l
    have ht := traced_run l
    have hnew : o.seq ∉ ((OrderEngine.fresh : OrderEngine D).run l).ready := by
      intro hm
      obtain ⟨o', ho'⟩ := Finmap.mem_iff.1 hm
      have h1 : o' ∈ l := ht.ready_sub _ _ ho'
      have h2 : o'.seq = o.seq := hi.keyed _ _ ho'
      exact hdis (List.mem_map.2 ⟨o', h1, h2⟩) (by simp)
    rw [run_concat]
    unfold OrderEngine.on_processed OrderEngine.try_commit_locked
    apply commit_loop_preserves
      (fun e : OrderEngine D => e.processed = e.committed.length + e.ready.keys.card)
    · intro e o' he ho'
      have hc := commit_one_card e o' ho'
      have hp : (e.commit_one o').processed = e.processed := rfl
      have hlen : (e.commit_one o').committed.length = e.committed.length + 1 := by
        simp [OrderEngine.commit_one]
      omega
    · simp only [card_emplace_new _ _ _ hnew]
      omega

/-- Orders with pairwise distinct sequence numbers have one arrangement in ascending
sequence order. -/
theorem sorted_seq_unique (a b : List (Order D)) (hp : a.Perm b)
    (ha : a.Pairwise (fun x y => x.seq < y.seq)) (hb : b.Pairwise (fun x y => x.seq < y.seq)) :
    a = b := by
  haveI : IsAntisymm (Order D) (fun x y => x.seq < y.seq) :=
    ⟨fun x y h1 h2 => absurd (Nat.lt_trans h1 h2) (Nat.lt_irrefl _)⟩
  exact List.eq_of_perm_of_sorted hp ha hb

/-- The arrangement by ascending sequence number has the same entries. -/
theorem sortBySeq_perm (l : List (Order D)) : (sortBySeq l).Perm l :=
  List.perm_insertionSort _ l

/-- With pairwise distinct sequence numbers the arrangement is strictly ascending. -/
theorem sortBySeq_strict (l : List (Order D)) (hnd : (l.map (fun o => o.seq)).Nodup) :
    (sortBySeq l).Pairwise (fun x y => x.seq < y.seq) := by
  haveI : IsTotal (Order D) (fun x y => x.seq ≤ y.seq) :=
    ⟨fun x y => Nat.le_total x.seq y.seq⟩
  haveI : IsTrans (Order D) (fun x y => x.seq ≤ y.seq) :=
    ⟨fun _ _ _ h1 h2 => Nat.le_trans h1 h2⟩
  have hs : (sortBySeq l).Pairwise (fun x y => x.seq ≤ y.seq) :=
    List.sorted_insertionSort (fun x y : Order D => x.seq ≤ y.seq) l
  have hn : ((sortBySeq l).map (fun o => o.seq)).Nodup :=
    (((sortBySeq_perm l).map (fun o => o.seq)).nodup_iff).2 hnd
  have hne : (sortBySeq l).Pairwise (fun x y => x.seq ≠ y.seq) := by
    unfold List.Nodup at hn
    rwa [List.pairwise_map] at hn
  exact (hs.and hne).imp (fun h => Nat.lt_of_le_of_ne h.1 h.2)

/-- The state after calls whose sequence numbers are `1, ..., N`, each once, in any
order: everything is committed, in ascending sequence order, and the buffer is empty. -/
theorem run_complete (N : Nat) (l : List (Order D))
    (hseq : (l.map (fun o => o.seq)).Perm (List.range' 1 N)) :
    ((OrderEngine.fresh : OrderEngine D).run l).next_commit_seq = N + 1
    ∧ ((OrderEngine.fresh : OrderEngine D).run l).committed = sortBySeq l
    ∧ ((OrderEngine.fresh : OrderEngine D).run l).ready = ∅ := by
  have hi : Inv ((OrderEngine.fresh : OrderEngine D).run l) := inv_run l
  have ht := traced_run l
  have hlen := hi.length_committed
  have hN : l.length = N := by
    have := hseq.length_eq
    simpa using this
  have hnd : (l.map (fun o => o.seq)).Nodup := (hseq.nodup_iff).2 (List.nodup_range' 1 N)
  have hlow : N < ((OrderEngine.fresh : OrderEngine D).run l).next_commit_seq := by
    rw [frontier_iff]
    intro s h1 h2
    exact hseq.mem_iff.2 (List.mem_range'_1.2 ⟨h1, by omega⟩)
  have hcnt := count_run l hnd
  rw [ht.processed_eq] at hcnt
  have hnext : ((OrderEngine.fresh : OrderEngine D).run l).next_commit_seq = N + 1 := by omega
  have hcard : ((OrderEngine.fresh : OrderEngine D).run l).ready.keys.card = 0 := by omega
  have hcn : (((OrderEngine.fresh : OrderEngine D).run l).committed.map
      (fun o => o.seq)).Nodup := by
    rw [hi.seqs]
    exact List.nodup_range' 1 _
  have hperm : ((OrderEngine.fresh : OrderEngine D).run l).committed.Perm l :=
    (List.subperm_of_subset hcn.of_map (fun o ho => ht.committed_sub o ho)).perm_of_length_le
      (by omega)
  have hstrict : ((OrderEngine.fresh : OrderEngine D).run l).committed.Pairwise
      (fun x y => x.seq < y.seq) := by
    have hp : (((OrderEngine.fresh : OrderEngine D).run l).committed.map
        (fun o => o.seq)).Pairwise (fun a b => a < b) := by
      rw [hi.seqs]
      exact List.pairwise_lt_range' 1 _
    rwa [List.pairwise_map] at hp
  refine ⟨hnext, ?_, ?_⟩
  · exact sorted_seq_unique _ _ (hperm.trans (sortBySeq_perm l).symm) hstrict
      (sortBySeq_strict l hnd)
  · apply Finmap.ext_lookup
    intro k
    rw [Finmap.lookup_empty, Finmap.lookup_eq_none]
    intro hk
    have hk2 := Finmap.mem_keys.2 hk
    rw [Finset.card_eq_zero.1 hcard] at hk2
    exact absurd hk2 (Finset.not_mem_empty _)

/-- Two engine states with the same fields are the same state. -/
theorem engine_eq (a b : OrderEngine D) (h1 : a.next_seq = b.next_seq)
    (h2 : a.submitted = b.submitted) (h3 : a.processed = b.processed)
    (h4 : a.next_commit_seq = b.next_commit_seq) (h5 : a.ready = b.ready)
    (h6 : a.total_notional = b.total_notional) (h7 : a.net_pos = b.net_pos)
    (h8 : a.committed = b.committed) : a = b := by
  cases a
  cases b
  simp only [OrderEngine.mk.injEq]
  exact ⟨h1, h2, h3, h4, h5, h6, h7, h8⟩

/-- Successive `assign_seq` calls from any engine state: the values returned are
consecutive from `next_seq_`, and both counters advance by the number of calls. -/
theorem assign_all_spec (os : List (Order D)) :
    ∀ e : OrderEngine D,
      (e.assign_all os).1.map (fun o => o.seq) = List.range' e.next_seq os.length
      ∧ (e.assign_all os).2.submitted = e.submitted + os.length
      ∧ (e.assign_all os).2.next_seq = e.next_seq + os.length := by
  induction os with
  | nil => intro e; simp [OrderEngine.assign_all]
  | cons o os ih =>
    intro e
    obtain ⟨h1, h2, h3⟩ := ih (e.assign_seq o).2
    simp only [OrderEngine.assign_all, List.map_cons, List.length_cons, List.range'_succ]
    refine ⟨?_, ?_, ?_⟩
    · rw [h1]; rfl
    · rw [h2]; simp only [OrderEngine.assign_seq]; omega
    · rw [h3]; simp only [OrderEngine.assign_seq]; omega

/-! ## Interleaved `assign_seq` calls -/

/-- The commit loop neither reads nor writes the two sequencer counters. -/
theorem commit_loop_counters (a b : Nat) :
    ∀ (fuel : Nat) (e : OrderEngine D),
      OrderEngine.commit_loop fuel (e.withCounters a b)
        = (OrderEngine.commit_loop fuel e).withCounters a b
  | 0, e => rfl
  | fuel + 1, e => by
    cases hl : e.ready.lookup e.next_commit_seq with
    | none =>
      have hl' : (e.withCounters a b).ready.lookup (e.withCounters a b).next_commit_seq
          = none := hl
      rw [commit_loop_none _ e hl, commit_loop_none _ _ hl']
    | some o =>
      have hl' : (e.withCounters a b).ready.lookup (e.withCounters a b).next_commit_seq
          = some o := hl
      rw [commit_loop_some _ e o hl, commit_loop_some _ _ o hl']
      exact commit_loop_counters a b fuel (e.commit_one o)

/-- The function `on_processed` neither reads nor writes the two sequencer counters. -/
theorem on_processed_counters (a b : Nat) (e : OrderEngine D) (o : Order D) :
    (e.withCounters a b).on_processed o = (e.on_processed o).withCounters a b := by
  unfold OrderEngine.on_processed OrderEngine.try_commit_locked
  exact commit_loop_counters a b _
    { e with processed := e.processed + 1, ready := emplace e.ready o.seq o }

/-- The calls of a sequence extended by one more call. -/
theorem processedOf_concat (cs : List (EngineCall D)) (c : EngineCall D) :
    processedOf (cs ++ [c])
      = processedOf cs ++ (match c with
          | EngineCall.assign_seq _ => []
          | EngineCall.on_processed o => [o]) := by
  induction cs with
  | nil => cases c <;> rfl
  | cons d cs ih => cases d <;> simp [processedOf, ih]

/-- The number of `assign_seq` calls of a sequence extended by one more call. -/
theorem assignedOf_concat (cs : List (EngineCall D)) (c : EngineCall D) :
    assignedOf (cs ++ [c])
      = assignedOf cs + (match c with
          | EngineCall.assign_seq _ => 1
          | EngineCall.on_processed _ => 0) := by
  induction cs with
  | nil => cases c <;> rfl
  | cons d cs ih => cases d <;> cases c <;> simp_all [assignedOf]

/-- A reachable state is the state after its `on_processed` calls alone, with the two
sequencer counters advanced by the number of `assign_seq` calls. -/
theorem reach_eq (cs : List (EngineCall D)) :
    OrderEngine.reach cs
      = ((OrderEngine.fresh : OrderEngine D).run (processedOf cs)).withCounters
          (1 + assignedOf cs) (assignedOf cs) := by
  induction cs using List.reverseRecOn with
  | nil => rfl
  | append_singleton l c ih =>
    have hstep : OrderEngine.reach (l ++ [c]) = (OrderEngine.reach l).call c := by
      simp [OrderEngine.reach, List.foldl_append]
    rw [hstep, ih, processedOf_concat, assignedOf_concat]
    cases c with
    | assign_seq o =>
      simp only [OrderEngine.call, OrderEngine.assign_seq, List.append_nil]
      rfl
    | on_processed o =>
      simp only [OrderEngine.call, run_concat, Nat.add_zero]
      exact on_processed_counters _ _ _ o

/-! ## Claims on the commit engine -/

/-- C1 (commit-order invariant). After any sequence of `on_processed` calls on a fresh
engine, whatever the orders and their `seq` values: the `seq` values of the committed log
are `1, 2, ..., next_commit_seq - 1` in this order, the log has `next_commit_seq - 1`
entries, the entry at position `i` (from 0) has `seq = i + 1`, and `committed_sample(k)`
lists the `seq` values `1, ..., min k count`, ascending and without gaps. -/
theorem C1_commit_order_invariant (calls : List (Order D)) :
    let e := (OrderEngine.fresh : OrderEngine D).run calls
    e.committed.map (fun o => o.seq) = List.range' 1 (e.next_commit_seq - 1)
    ∧ e.next_commit_seq = e.committed.length + 1
    ∧ (∀ i : Nat, (e.committed[i]?).map (fun o => o.seq)
        = if i < e.committed.length then some (i + 1) else none)
    ∧ (∀ k : Nat, (e.committed_sample k).map (fun o => o.seq)
        = List.range' 1 (min k e.committed.length)) := by
  intro e
  have h : Inv e := inv_run calls
  have hlen := h.length_committed
  refine ⟨h.seqs, hlen.symm, ?_, ?_⟩
  · intro i
    have hi : (e.committed.map (fun o => o.seq))[i]?
        = (List.range' 1 (e.next_commit_seq - 1))[i]? := by rw [h.seqs]
    rw [List.getElem?_map] at hi
    rw [hi]
    have hl : e.next_commit_seq - 1 = e.committed.length := by omega
    rw [hl]
    split
    · next hlt => rw [List.getElem?_range' 1 1 hlt]; simp [Nat.add_comm]
    · next hge => exact List.getElem?_eq_none (by rw [List.length_range']; omega)
  · intro k
    unfold OrderEngine.committed_sample
    rw [List.map_take, h.seqs, take_range_from]
    have hl : e.next_commit_seq - 1 = e.committed.length := by omega
    rw [hl, Nat.min_assoc, Nat.min_self]

/-- C2 (permutation invariance). For every `N` and every list of orders whose `seq` values
are `1, ..., N`, each once, `on_processed` called on a fresh engine for the orders in any
two arrangements of the list ends in the same engine state; in it `committed == N`, the
committed log is the list arranged by ascending `seq`, nothing is left in the buffer, and
`summary()` reports the same `net_position` and `total_notional` for both arrangements. -/
theorem C2_permutation_invariance (N : Nat) (l1 l2 : List (Order D)) (hperm : l1.Perm l2)
    (hseq : (l1.map (fun o => o.seq)).Perm (List.range' 1 N)) :
    (OrderEngine.fresh : OrderEngine D).run l1 = (OrderEngine.fresh : OrderEngine D).run l2
    ∧ ((OrderEngine.fresh : OrderEngine D).run l1).summary.committed = N
    ∧ ((OrderEngine.fresh : OrderEngine D).run l1).committed = sortBySeq l1
    ∧ ((OrderEngine.fresh : OrderEngine D).run l1).ready = ∅
    ∧ ((OrderEngine.fresh : OrderEngine D).run l1).summary.net_position
        = ((OrderEngine.fresh : OrderEngine D).run l2).summary.net_position
    ∧ ((OrderEngine.fresh : OrderEngine D).run l1).summary.total_notional
        = ((OrderEngine.fresh : OrderEngine D).run l2).summary.total_notional := by
  have hseq2 : (l2.map (fun o => o.seq)).Perm (List.range' 1 N) :=
    ((hperm.map (fun o => o.seq)).symm).trans hseq
  obtain ⟨hn1, hc1, hr1⟩ := run_complete N l1 hseq
  obtain ⟨hn2, hc2, hr2⟩ := run_complete N l2 hseq2
  have hi1 : Inv ((OrderEngine.fresh : OrderEngine D).run l1) := inv_run l1
  have hi2 : Inv ((OrderEngine.fresh : OrderEngine D).run l2) := inv_run l2
  have ht1 := traced_run l1
  have ht2 := traced_run l2
  have hnd1 : (l1.map (fun o => o.seq)).Nodup := (hseq.nodup_iff).2 (List.nodup_range' 1 N)
  have hnd2 : (l2.map (fun o => o.seq)).Nodup := (hseq2.nodup_iff).2 (List.nodup_range' 1 N)
  have hsort : sortBySeq l1 = sortBySeq l2 :=
    sorted_seq_unique _ _ (((sortBySeq_perm l1).trans hperm).trans (sortBySeq_perm l2).symm)
      (sortBySeq_strict l1 hnd1) (sortBySeq_strict l2 hnd2)
  have hcom : ((OrderEngine.fresh : OrderEngine D).run l1).committed
      = ((OrderEngine.fresh : OrderEngine D).run l2).committed := by rw [hc1, hc2, hsort]
  have hnet : ((OrderEngine.fresh : OrderEngine D).run l1).net_pos
      = ((OrderEngine.fresh : OrderEngine D).run l2).net_pos := by
    apply Finmap.ext_lookup
    intro sym
    rw [hi1.position, hi2.position, hcom]
  have htot : ((OrderEngine.fresh : OrderEngine D).run l1).total_notional
      = ((OrderEngine.fresh : OrderEngine D).run l2).total_notional := by
    rw [hi1.total, hi2.total, hcom]
  have hcount : ((OrderEngine.fresh : OrderEngine D).run l1).summary.committed = N := by
    have := hi1.length_committed
    simp only [OrderEngine.summary]
    omega
  refine ⟨?_, hcount, hc1, hr1, hnet, htot⟩
  exact engine_eq _ _ (by rw [ht1.next_seq_eq, ht2.next_seq_eq])
    (by rw [ht1.submitted_eq, ht2.submitted_eq])
    (by rw [ht1.processed_eq, ht2.processed_eq, hperm.length_eq])
    (by rw [hn1, hn2]) (by rw [hr1, hr2]) htot hnet hcom

/-- C2 at the orders of the determinism test: the arrangements (2,1,3) and (3,2,1) end in
the same state, and each of (2,1,3), (1,2,3), (3,2,1) gives `net_position["SYM0"] == 8`,
`total_notional == 1400` and `committed == 3`, as does the test run as written. -/
theorem C2_permutation_invariance_witness :
    ((OrderEngine.fresh : OrderEngine Int).run [testB, testA, testC]
        = (OrderEngine.fresh : OrderEngine Int).run [testC, testB, testA]
      ∧ ((OrderEngine.fresh : OrderEngine Int).run [testB, testA, testC]).committed
        = [testA, testB, testC])
    ∧ (∀ l ∈ [[testB, testA, testC], [testA, testB, testC], [testC, testB, testA]],
        ((OrderEngine.fresh : OrderEngine Int).run l).summary.net_position.lookup "SYM0" = some 8
        ∧ ((OrderEngine.fresh : OrderEngine Int).run l).summary.total_notional = 1400
        ∧ ((OrderEngine.fresh : OrderEngine Int).run l).summary.committed = 3)
    ∧ testDeterminism.net_position.lookup "SYM0" = some 8
    ∧ testDeterminism.total_notional = 1400
    ∧ testDeterminism.committed = 3 :=
  ⟨⟨(C2_permutation_invariance 3 [testB, testA, testC] [testC, testB, testA]
        (by decide) (by decide)).1,
      by decide⟩,
    by decide, by decide, by decide, by decide⟩

/-- C3, as amended (aggregate consistency). After any sequence of `on_processed` calls on
a fresh engine, `total_notional` is the left-to-right sum of `qty * price` over the
committed log, and the position of every symbol is the sum of the signed quantities of the
committed orders of that symbol (`+qty` for Buy, `-qty` for Sell) reduced to the range of
`std::int64_t` by two's-complement wrap-around: it is the sum itself when the sum lies
from -2^63 to 2^63 - 1. A symbol that no committed order has has no entry. The same holds
of the snapshot `summary()` returns. Both are functions of the log alone, so the holding
buffer contributes nothing. -/
theorem C3_aggregate_consistency (calls : List (Order D)) :
    let e := (OrderEngine.fresh : OrderEngine D).run calls
    e.total_notional = notionalOf e.committed
    ∧ (∀ sym : String, e.net_pos.lookup sym = (positionOf e.committed sym).map wrap64)
    ∧ e.summary.total_notional = notionalOf e.committed
    ∧ (∀ sym : String,
        e.summary.net_position.lookup sym = (positionOf e.committed sym).map wrap64)
    ∧ (∀ (sym : String) (p : Int), positionOf e.committed sym = some p →
        -9223372036854775808 ≤ p → p < 9223372036854775808 →
        e.summary.net_position.lookup sym = some p)
    ∧ (∀ sym : String, (∀ o ∈ e.committed, o.symbol ≠ sym) →
        sym ∉ e.summary.net_position) := by
  intro e
  have h : Inv e := inv_run calls
  refine ⟨h.total, h.position, h.total, h.position, ?_, ?_⟩
  · intro sym p hp h1 h2
    show e.net_pos.lookup sym = some p
    rw [h.position sym, hp]
    show some (wrap64 p) = some p
    rw [wrap64_of_range p h1 h2]
  · intro sym hsym
    apply Finmap.lookup_eq_none.1
    have hp := h.position sym
    simp only [OrderEngine.summary]
    rw [hp]
    unfold positionOf
    have hany : e.committed.any (fun o => decide (o.symbol = sym)) = false := by
      rw [List.any_eq_false]
      intro o ho
      simpa using hsym o ho
    simp [hany]

/-- C3 as stated fails at a Buy of 2^63 - 1 followed by a Buy of 1 on SYM0: the sum of the
signed quantities of the committed orders is 2^63, and the engine holds the position
-2^63. -/
theorem C3_aggregate_consistency_counterexample :
    ((OrderEngine.fresh : OrderEngine Int).run [testMaxBuy, testOneBuy]).committed
        = [testMaxBuy, testOneBuy]
    ∧ positionOf ((OrderEngine.fresh : OrderEngine Int).run [testMaxBuy, testOneBuy]).committed
        "SYM0" = some 9223372036854775808
    ∧ ((OrderEngine.fresh : OrderEngine Int).run
        [testMaxBuy, testOneBuy]).summary.net_position.lookup "SYM0"
        = some (-9223372036854775808)
    ∧ ((OrderEngine.fresh : OrderEngine Int).run
        [testMaxBuy, testOneBuy]).summary.net_position.lookup "SYM0"
        ≠ positionOf ((OrderEngine.fresh : OrderEngine Int).run
            [testMaxBuy, testOneBuy]).committed "SYM0" := by
  refine ⟨by decide, by decide, by decide, by decide⟩

/-- C3 at the orders of the determinism test, processed as (2,1,3): the position of SYM0
is 10 - 3 + 1 = 8, the sum itself, and `total_notional` is 1400. -/
theorem C3_aggregate_consistency_witness :
    ((OrderEngine.fresh : OrderEngine Int).run
        [testB, testA, testC]).summary.net_position.lookup "SYM0" = some 8
    ∧ positionOf ((OrderEngine.fresh : OrderEngine Int).run [testB, testA, testC]).committed
        "SYM0" = some 8
    ∧ ((OrderEngine.fresh : OrderEngine Int).run [testB, testA, testC]).total_notional = 1400 :=
  ⟨(C3_aggregate_consistency [testB, testA, testC]).2.2.2.2.1 "SYM0" 8 (by decide)
      (by decide) (by decide),
    by decide, by decide⟩

/-- C4 (sequencer coverage and uniqueness). `assign_seq` called on a fresh engine for `N`
orders in turn returns orders whose `seq` values are `1, ..., N` in call order (the `k`-th
call returns `seq = k`): pairwise distinct, forming exactly the set from 1 to `N`; and
afterwards `summary().submitted == N`. -/
theorem C4_sequencer_coverage (os : List (Order D)) :
    let r := (OrderEngine.fresh : OrderEngine D).assign_all os
    r.1.map (fun o => o.seq) = List.range' 1 os.length
    ∧ r.1.length = os.length
    ∧ (r.1.map (fun o => o.seq)).Nodup
    ∧ (∀ s : Nat, s ∈ r.1.map (fun o => o.seq) ↔ 1 ≤ s ∧ s ≤ os.length)
    ∧ (∀ k : Nat, (r.1[k]?).map (fun o => o.seq)
        = if k < os.length then some (k + 1) else none)
    ∧ r.2.summary.submitted = os.length := by
  intro r
  have hseq : r.1.map (fun o => o.seq) = List.range' 1 os.length :=
    (assign_all_spec os OrderEngine.fresh).1
  have hsub : r.2.summary.submitted = os.length := by
    have := (assign_all_spec os (OrderEngine.fresh : OrderEngine D)).2.1
    simpa [OrderEngine.summary, OrderEngine.fresh] using this
  refine ⟨hseq, ?_, ?_, ?_, ?_, hsub⟩
  · have := congrArg List.length hseq
    simpa using this
  · rw [hseq]; exact List.nodup_range' 1 _
  · intro s
    rw [hseq, List.mem_range'_1]
    omega
  · intro k
    have hk : (r.1.map (fun o => o.seq))[k]? = (List.range' 1 os.length)[k]? := by rw [hseq]
    rw [List.getElem?_map] at hk
    rw [hk]
    split
    · next hlt => rw [List.getElem?_range' 1 1 hlt]; simp [Nat.add_comm]
    · next hge => exact List.getElem?_eq_none (by rw [List.length_range']; omega)

/-- C5 (meaning of the barrier predicate). In every state reached from a fresh engine by
`assign_seq` and `on_processed` calls, and for every `lastSeq`, the condition
`wait_until_committed(lastSeq)` waits for, `next_commit_seq > lastSeq`, holds exactly when
every sequence number from 1 to `lastSeq` is in the committed log. -/
theorem C5_barrier_predicate (cs : List (EngineCall D)) (lastSeq : Nat) :
    ((OrderEngine.reach cs).wait_until_committed lastSeq = true
      ↔ lastSeq < (OrderEngine.reach cs).next_commit_seq)
    ∧ ((OrderEngine.reach cs).wait_until_committed lastSeq = true
      ↔ ∀ s : Nat, 1 ≤ s → s ≤ lastSeq →
          s ∈ (OrderEngine.reach cs).committed.map (fun o => o.seq)) := by
  have h : Inv ((OrderEngine.fresh : OrderEngine D).run (processedOf cs)) := inv_run _
  have hp := h.pos
  have hn : (OrderEngine.reach cs).next_commit_seq
      = ((OrderEngine.fresh : OrderEngine D).run (processedOf cs)).next_commit_seq := by
    rw [reach_eq]; rfl
  have hc : (OrderEngine.reach cs).committed
      = ((OrderEngine.fresh : OrderEngine D).run (processedOf cs)).committed := by
    rw [reach_eq]; rfl
  refine ⟨by simp [OrderEngine.wait_until_committed], ?_⟩
  simp only [OrderEngine.wait_until_committed, decide_eq_true_eq]
  rw [hn, hc]
  constructor
  · intro hlt s h1 h2
    exact (h.mem_committed s).2 ⟨h1, by omega⟩
  · intro hall
    by_contra hge
    have hmem := hall _ hp (by omega)
    have := ((h.mem_committed _).1 hmem).2
    omega

/-- C6 (barrier release). For every `N` and every sequence of `on_processed` calls on a
fresh engine, in any order: the condition `wait_until_committed(N)` waits for, namely
`next_commit_seq > N`, holds exactly when an order of each `seq` from 1 to `N` has been
passed to `on_processed`; and while some `seq` from 1 to `N` has not been passed,
`next_commit_seq <= N` and the barrier stays blocked. -/
theorem C6_barrier_release (N : Nat) (calls : List (Order D)) :
    let e := (OrderEngine.fresh : OrderEngine D).run calls
    (e.wait_until_committed N = true ↔ N < e.next_commit_seq)
    ∧ (N < e.next_commit_seq
        ↔ ∀ s : Nat, 1 ≤ s → s ≤ N → s ∈ calls.map (fun o => o.seq))
    ∧ ((e.next_commit_seq ≤ N ∧ e.wait_until_committed N = false)
        ↔ ∃ s : Nat, 1 ≤ s ∧ s ≤ N ∧ s ∉ calls.map (fun o => o.seq)) := by
  intro e
  have hf : N < e.next_commit_seq
      ↔ ∀ s : Nat, 1 ≤ s → s ≤ N → s ∈ calls.map (fun o => o.seq) :=
    frontier_iff calls N
  refine ⟨by simp [OrderEngine.wait_until_committed], hf, ?_⟩
  constructor
  · rintro ⟨hle, _⟩
    by_contra hne
    have hall : ∀ s : Nat, 1 ≤ s → s ≤ N → s ∈ calls.map (fun o => o.seq) := by
      intro s h1 h2
      by_contra hs
      exact hne ⟨s, h1, h2, hs⟩
    have := hf.2 hall
    omega
  · rintro ⟨s, h1, h2, hs⟩
    have hnot : ¬ N < e.next_commit_seq := fun hlt => hs (hf.1 hlt s h1 h2)
    exact ⟨by omega, by simpa [OrderEngine.wait_until_committed] using hnot⟩

/-! ## The bounded queue -/

/-- A `push` on a closed queue is rejected and changes nothing. -/
theorem push_closed {T : Type} (s : BoundedQueue T) (item : T) (h : s.closed = true) :
    s.push item = some (false, s) := by
  simp [BoundedQueue.push, h]

/-- A `push` on an open queue with room appends at the back. -/
theorem push_open {T : Type} (s : BoundedQueue T) (item : T) (h : s.closed = false)
    (hroom : s.q.length < s.cap) :
    s.push item = some (true, { s with q := s.q ++ [item] }) := by
  simp [BoundedQueue.push, h, hroom]

/-- A `push` on an open queue without room blocks. -/
theorem push_full {T : Type} (s : BoundedQueue T) (item : T) (h : s.closed = false)
    (hfull : ¬ s.q.length < s.cap) : s.push item = none := by
  simp [BoundedQueue.push, h, hfull]

/-- A `pop` on a non-empty queue removes and returns the front item. -/
theorem pop_cons {T : Type} (s : BoundedQueue T) (item : T) (rest : List T)
    (h : s.q = item :: rest) : s.pop = some (some item, { s with q := rest }) := by
  simp [BoundedQueue.pop, h]

/-- A `pop` on a closed empty queue returns the empty sentinel and changes nothing. -/
theorem pop_closed_nil {T : Type} (s : BoundedQueue T) (hc : s.closed = true) (h : s.q = []) :
    s.pop = some (none, s) := by
  simp [BoundedQueue.pop, h, hc]

/-- A `pop` on an open empty queue blocks. -/
theorem pop_open_nil {T : Type} (s : BoundedQueue T) (hc : s.closed = false) (h : s.q = []) :
    s.pop = none := by
  simp [BoundedQueue.pop, h, hc]

/-- Every `pop` on a closed empty queue returns the empty sentinel. -/
theorem pop_many_closed_nil {T : Type} (n : Nat) (s : BoundedQueue T) (hc : s.closed = true)
    (h : s.q = []) : BoundedQueue.pop_many n s = (List.replicate n none, s) := by
  induction n with
  | zero => rfl
  | succ n ih => simp [BoundedQueue.pop_many, pop_closed_nil s hc h, ih, List.replicate_succ]

/-- The `pop` calls on a closed queue return its items front to back, then the empty
sentinel. -/
theorem pop_many_closed {T : Type} (n : Nat) :
    ∀ (l : List T) (s : BoundedQueue T), s.q = l → s.closed = true →
      (BoundedQueue.pop_many (l.length + n) s).1 = l.map some ++ List.replicate n none
  | [], s, hq, hc => by
    simp [pop_many_closed_nil _ s hc hq]
  | item :: rest, s, hq, hc => by
    have hlen : (item :: rest).length + n = (rest.length + n) + 1 := by
      simp only [List.length_cons]; omega
    rw [hlen]
    simp only [BoundedQueue.pop_many, pop_cons s item rest hq]
    rw [pop_many_closed n rest { s with q := rest } rfl hc]
    simp

/-- A `push` call on a queue with history. -/
theorem step_push {T : Type} (h : QueueTrace T) (item : T) :
    h.step (QueueOp.push item) =
      if h.state.closed = true then h
      else if h.state.q.length < h.state.cap then
        { h with state := { h.state with q := h.state.q ++ [item] },
                 accepted := h.accepted ++ [item] }
      else h := by
  unfold QueueTrace.step
  by_cases hc : h.state.closed = true
  · simp [push_closed _ item hc, hc]
  · have hc' : h.state.closed = false := by simpa using hc
    by_cases hr : h.state.q.length < h.state.cap
    · simp [push_open _ item hc' hr, hc', hr]
    · simp [push_full _ item hc' hr, hc', hr]

/-- A `pop` call on a queue with history. -/
theorem step_pop {T : Type} (h : QueueTrace T) :
    h.step QueueOp.pop =
      match h.state.q with
      | [] => h
      | item :: rest => { h with state := { h.state with q := rest },
                                 popped := h.popped ++ [item] } := by
  unfold QueueTrace.step
  cases hq : h.state.q with
  | nil =>
    by_cases hc : h.state.closed = true
    · simp [pop_closed_nil _ hc hq]
    · have hc' : h.state.closed = false := by simpa using hc
      simp [pop_open_nil _ hc' hq]
  | cons item rest => simp [pop_cons _ item rest hq]

/-- A property of queues with history that every call keeps holds after every sequence
of calls on a fresh queue. -/
theorem trace_run_preserves {T : Type} (P : QueueTrace T → Prop) (capacity : Nat)
    (h0 : P { state := BoundedQueue.init capacity })
    (hstep : ∀ h op, P h → P (h.step op)) (ops : List (QueueOp T)) :
    P (QueueTrace.run capacity ops) := by
  induction ops using List.reverseRecOn with
  | nil => exact h0
  | append_singleton l op ih =>
    simp only [QueueTrace.run, List.foldl_append, List.foldl_cons, List.foldl_nil]
    exact hstep _ op ih

/-- C7 (push after close). On every closed queue, with or without free capacity, `push`
returns `false` and leaves the queue unchanged; on an open queue with size below capacity
`push` returns `true` and appends the item at the back. -/
theorem C7_push_after_close {T : Type} (s : BoundedQueue T) (item : T) :
    (s.closed = true → s.push item = some (false, s))
    ∧ (s.closed = false → s.q.length < s.cap →
        s.push item = some (true, { s with q := s.q ++ [item] })) :=
  ⟨push_closed s item, push_open s item⟩

/-- C7 at a closed queue with free capacity, a closed full queue and an open queue with
room: the first two reject the item and stay as they were, the third appends it. -/
theorem C7_push_after_close_witness :
    ({ cap := 2, q := [1], closed := true } : BoundedQueue Nat).push 9
        = some (false, { cap := 2, q := [1], closed := true })
    ∧ ({ cap := 1, q := [1], closed := true } : BoundedQueue Nat).push 9
        = some (false, { cap := 1, q := [1], closed := true })
    ∧ ({ cap := 2, q := [1], closed := false } : BoundedQueue Nat).push 9
        = some (true, { cap := 2, q := [1, 9], closed := false }) :=
  ⟨(C7_push_after_close { cap := 2, q := [1], closed := true } 9).1 rfl,
   (C7_push_after_close { cap := 1, q := [1], closed := true } 9).1 rfl,
   (C7_push_after_close { cap := 2, q := [1], closed := false } 9).2 rfl (by decide)⟩

/-- C8 (close then drain). After `close()` on a queue holding `x1, ..., xk`, the next `k`
calls of `pop` return `x1, ..., xk` in this order and every later call returns the empty
sentinel. In any state, `pop` returns the empty sentinel only when the queue is closed and
empty, and on a non-empty queue, closed or not, it returns and removes the front item. -/
theorem C8_close_then_drain {T : Type} (s : BoundedQueue T) (n : Nat) :
    (BoundedQueue.pop_many (s.q.length + n) s.close).1 = s.q.map some ++ List.replicate n none
    ∧ (∀ s' : BoundedQueue T,
        s.pop = some (none, s') ↔ (s.closed = true ∧ s.q = [] ∧ s' = s))
    ∧ (∀ (item : T) (rest : List T), s.q = item :: rest →
        s.pop = some (some item, { s with q := rest })) := by
  refine ⟨pop_many_closed n s.q s.close rfl rfl, ?_, pop_cons s⟩
  intro s'
  constructor
  · intro hp
    cases hq : s.q with
    | nil =>
      by_cases hc : s.closed = true
      · rw [pop_closed_nil s hc hq] at hp
        simp only [Option.some.injEq, Prod.mk.injEq, true_and] at hp
        exact ⟨hc, rfl, hp.symm⟩
      · have hc' : s.closed = false := by simpa using hc
        rw [pop_open_nil s hc' hq] at hp
        exact absurd hp (by simp)
    | cons item rest =>
      rw [pop_cons s item rest hq] at hp
      simp at hp
  · rintro ⟨hc, hq, rfl⟩
    exact pop_closed_nil _ hc hq

/-- C8 at an open queue holding 7, 8: after `close()` four calls of `pop` return 7, 8 and
twice the empty sentinel; before `close()` the first `pop` already returns 7. -/
theorem C8_close_then_drain_witness :
    (BoundedQueue.pop_many 4 ({ cap := 2, q := [7, 8] } : BoundedQueue Nat).close).1
        = [some 7, some 8, none, none]
    ∧ ({ cap := 2, q := [7, 8] } : BoundedQueue Nat).pop
        = some (some 7, { cap := 2, q := [8] }) :=
  ⟨(C8_close_then_drain ({ cap := 2, q := [7, 8] } : BoundedQueue Nat) 2).1,
   (C8_close_then_drain ({ cap := 2, q := [7, 8] } : BoundedQueue Nat) 2).2.2 7 [8] rfl⟩

/-- C9 (FIFO, no loss). After every sequence of `push`, `pop` and `close` calls on a fresh
queue, the items returned by `pop` so far followed by the items now queued are the items
whose `push` returned `true`, in push order. -/
theorem C9_fifo_no_loss {T : Type} (capacity : Nat) (ops : List (QueueOp T)) :
    (QueueTrace.run capacity ops).popped ++ (QueueTrace.run capacity ops).state.q
      = (QueueTrace.run capacity ops).accepted := by
  apply trace_run_preserves (fun h : QueueTrace T => h.popped ++ h.state.q = h.accepted)
  · rfl
  · intro h op hP
    cases op with
    | push item =>
      rw [step_push]
      split
      · exact hP
      · split
        · simp only [← List.append_assoc, hP]
        · exact hP
    | pop =>
      rw [step_pop]
      split
      · exact hP
      · next item rest hq =>
        rw [hq] at hP
        simpa using hP
    | close => exact hP

/-- C10 (backpressure bound). After every sequence of `push`, `pop` and `close` calls on a
fresh queue of capacity `c`, at most `c` items are queued. When the queue is open and holds
`c` items, a `push` blocks and enqueues nothing; it succeeds after a `pop` that returned,
is rejected after a `close`, and no other call makes it runnable. -/
theorem C10_backpressure_bound {T : Type} (c : Nat) (ops : List (QueueOp T)) :
    let h := QueueTrace.run c ops
    h.state.cap = c
    ∧ h.state.q.length ≤ c
    ∧ (h.state.closed = false → h.state.q.length = c →
        (∀ item : T, h.state.push item = none ∧ h.step (QueueOp.push item) = h)
        ∧ (∀ (item : T) (r : Option T) (s' : BoundedQueue T), h.state.pop = some (r, s') →
            s'.push item = some (true, { s' with q := s'.q ++ [item] }))
        ∧ (∀ item : T, h.state.close.push item = some (false, h.state.close))
        ∧ (∀ (op : QueueOp T) (item : T), (h.step op).state.push item ≠ none →
            op = QueueOp.pop ∨ op = QueueOp.close)) := by
  intro h
  have hinv : h.state.cap = c ∧ h.state.q.length ≤ h.state.cap := by
    apply trace_run_preserves
      (fun h : QueueTrace T => h.state.cap = c ∧ h.state.q.length ≤ h.state.cap)
    · exact ⟨rfl, Nat.zero_le _⟩
    · intro h op hP
      cases op with
      | push item =>
        rw [step_push]
        split
        · exact hP
        · split
          · next hr =>
            exact ⟨hP.1, by simp only [List.length_append, List.length_singleton]; omega⟩
          · exact hP
      | pop =>
        rw [step_pop]
        split
        · exact hP
        · next item rest hq =>
          have := hP.2
          rw [hq] at this
          simp only [List.length_cons] at this
          exact ⟨hP.1, by simp only; omega⟩
      | close => exact hP
  refine ⟨hinv.1, by omega, ?_⟩
  intro hopen hfull
  have hnot : ¬ h.state.q.length < h.state.cap := by omega
  refine ⟨?_, ?_, ?_, ?_⟩
  · intro item
    exact ⟨push_full _ item hopen hnot, by rw [step_push]; simp [hopen, hnot]⟩
  · intro item r s' hpop
    cases hq : h.state.q with
    | nil =>
      rw [pop_open_nil _ hopen hq] at hpop
      exact absurd hpop (by simp)
    | cons x rest =>
      rw [pop_cons _ x rest hq] at hpop
      simp only [Option.some.injEq, Prod.mk.injEq] at hpop
      obtain ⟨_, rfl⟩ := hpop
      apply push_open
      · exact hopen
      · have := hinv.2
        rw [hq] at hfull this
        simp only [List.length_cons] at hfull this ⊢
        omega
  · intro item
    exact push_closed _ item rfl
  · intro op item hen
    cases op with
    | push y =>
      exfalso
      apply hen
      rw [step_push]
      simp only [hopen, hnot, if_false, Bool.false_eq_true]
      exact push_full _ item hopen hnot
    | pop => exact Or.inl rfl
    | close => exact Or.inr rfl

/-- C10 at a queue of capacity 2 after two accepted pushes: it is open and full, a third
`push` blocks, and the `push` succeeds after a `pop` and is rejected after a `close`. -/
theorem C10_backpressure_bound_witness :
    (∀ item : Nat,
      (QueueTrace.run 2 [QueueOp.push 1, QueueOp.push 2]).state.push item = none
      ∧ (QueueTrace.run 2 [QueueOp.push 1, QueueOp.push 2]).step (QueueOp.push item)
          = QueueTrace.run 2 [QueueOp.push 1, QueueOp.push 2])
    ∧ (QueueTrace.run 2 [QueueOp.push 1, QueueOp.push 2, QueueOp.pop]).state.push 3
        = some (true, { cap := 2, q := [2, 3] })
    ∧ (QueueTrace.run 2 [QueueOp.push 1, QueueOp.push 2, QueueOp.close]).state.push 3
        = some (false, { cap := 2, q := [1, 2], closed := true }) :=
  ⟨((C10_backpressure_bound 2 [QueueOp.push 1, QueueOp.push 2]).2.2 (by decide)
      (by decide)).1,
   by decide, by decide⟩

/-! ## How one call moves the log, the frontier and the counters -/

/-- The commit loop only appends to the log, and moves the frontier by the number of
entries it appends. -/
theorem commit_loop_log (fuel : Nat) (e : OrderEngine D) :
    ∃ suffix : List (Order D),
      (OrderEngine.commit_loop fuel e).committed = e.committed ++ suffix
      ∧ (OrderEngine.commit_loop fuel e).next_commit_seq
          = e.next_commit_seq + suffix.length := by
  apply commit_loop_preserves
    (fun e' : OrderEngine D => ∃ suffix : List (Order D),
      e'.committed = e.committed ++ suffix
      ∧ e'.next_commit_seq = e.next_commit_seq + suffix.length)
  · rintro e' o ⟨suffix, h1, h2⟩ _
    refine ⟨suffix ++ [o], ?_, ?_⟩
    · simp only [OrderEngine.commit_one, h1, List.append_assoc]
    · simp only [OrderEngine.commit_one, h2, List.length_append, List.length_singleton]
      omega
  · exact ⟨[], by simp, by simp⟩

/-- A call of `on_processed` only appends to the log, and moves the frontier by the number
of entries it appends. -/
theorem on_processed_log (e : OrderEngine D) (o : Order D) :
    ∃ suffix : List (Order D),
      (e.on_processed o).committed = e.committed ++ suffix
      ∧ (e.on_processed o).next_commit_seq = e.next_commit_seq + suffix.length := by
  unfold OrderEngine.on_processed OrderEngine.try_commit_locked
  exact commit_loop_log _ _

/-- A sequence of `on_processed` calls only appends to the log, and moves the frontier by
the number of entries appended. -/
theorem run_log (more : List (Order D)) :
    ∀ e : OrderEngine D, ∃ suffix : List (Order D),
      (e.run more).committed = e.committed ++ suffix
      ∧ (e.run more).next_commit_seq = e.next_commit_seq + suffix.length := by
  induction more with
  | nil => intro e; exact ⟨[], by simp [OrderEngine.run], by simp [OrderEngine.run]⟩
  | cons o more ih =>
    intro e
    obtain ⟨s1, h1, h2⟩ := on_processed_log e o
    obtain ⟨s2, h3, h4⟩ := ih (e.on_processed o)
    refine ⟨s1 ++ s2, ?_, ?_⟩
    · simp only [OrderEngine.run, List.foldl_cons] at h3 ⊢
      rw [h3, h1, List.append_assoc]
    · simp only [OrderEngine.run, List.foldl_cons] at h4 ⊢
      rw [h4, h2, List.length_append]
      omega

/-- The function `emplace` adds one entry at most. -/
theorem card_emplace_le (m : Finmap (fun _ : Nat => Order D)) (k : Nat) (v : Order D) :
    (emplace m k v).keys.card ≤ m.keys.card + 1 := by
  by_cases h : k ∈ m
  · rw [emplace_present m k v h]
    omega
  · rw [card_emplace_new m k v h]

/-- Whatever the calls, the log and the buffer together hold no more orders than were
passed to `on_processed`. -/
theorem count_run_le (calls : List (Order D)) :
    ((OrderEngine.fresh : OrderEngine D).run calls).committed.length
        + ((OrderEngine.fresh : OrderEngine D).run calls).ready.keys.card
      ≤ ((OrderEngine.fresh : OrderEngine D).run calls).processed := by
  induction calls using List.reverseRecOn with
  | nil => simp [OrderEngine.run, OrderEngine.fresh]
  | append_singleton l o ih =>
    rw [run_concat]
    unfold OrderEngine.on_processed OrderEngine.try_commit_locked
    apply commit_loop_preserves
      (fun e : OrderEngine D => e.committed.length + e.ready.keys.card ≤ e.processed)
    · intro e o' he ho'
      have hc := commit_one_card e o' ho'
      have hp : (e.commit_one o').processed = e.processed := rfl
      have hlen : (e.commit_one o').committed.length = e.committed.length + 1 := by
        simp [OrderEngine.commit_one]
      omega
    · have := card_emplace_le ((OrderEngine.fresh : OrderEngine D).run l).ready o.seq o
      simp only
      omega

/-- When the calls carry pairwise distinct sequence numbers, all at least 1, no key of
the buffer lies below the commit frontier. -/
theorem buffer_above (calls : List (Order D)) (hnd : (calls.map (fun o => o.seq)).Nodup)
    (hpos : ∀ o ∈ calls, 1 ≤ o.seq) :
    ∀ k ∈ ((OrderEngine.fresh : OrderEngine D).run calls).ready,
      ((OrderEngine.fresh : OrderEngine D).run calls).next_commit_seq ≤ k := by
  induction calls using List.reverseRecOn with
  | nil =>
    intro k hk
    exact absurd hk Finmap.not_mem_empty
  | append_singleton l o ih =>
    rw [List.map_append, List.nodup_append] at hnd
    obtain ⟨hl, _, hdis⟩ := hnd
    have ih := ih hl (fun x hx => hpos x (List.mem_append_left _ hx))
    have hi : Inv ((OrderEngine.fresh : OrderEngine D).run l) := inv_run l
    have ht := traced_run l
    have hfront : ((OrderEngine.fresh : OrderEngine D).run l).next_commit_seq ≤ o.seq := by
      by_contra hlt
      have h1 : 1 ≤ o.seq := hpos o (by simp)
      obtain ⟨o', ho', hs⟩ := List.mem_map.1 ((hi.mem_committed o.seq).2 ⟨h1, by omega⟩)
      exact hdis (List.mem_map.2 ⟨o', ht.committed_sub o' ho', hs⟩) (by simp)
    rw [run_concat]
    unfold OrderEngine.on_processed OrderEngine.try_commit_locked
    apply commit_loop_preserves
      (fun e : OrderEngine D => ∀ k ∈ e.ready, e.next_commit_seq ≤ k)
    · intro e o' he _ k hk
      simp only [OrderEngine.commit_one] at hk ⊢
      obtain ⟨hne, hmem⟩ := Finmap.mem_erase.1 hk
      have := he k hmem
      omega
    · intro k hk
      rcases mem_emplace.1 hk with h1 | h1
      · rw [h1]; exact hfront
      · exact ih k h1

/-- The run found by `consecutiveRun` is a run of present keys, no longer than the bound,
and it ends at an absent key unless the bound cut it. -/
theorem consecutiveRun_spec (m : Finmap (fun _ : Nat => Order D)) :
    ∀ (bound k : Nat),
      consecutiveRun m k bound ≤ bound
      ∧ (∀ i : Nat, i < consecutiveRun m k bound → k + i ∈ m)
      ∧ (consecutiveRun m k bound < bound → k + consecutiveRun m k bound ∉ m)
  | 0, k => by simp [consecutiveRun]
  | bound + 1, k => by
    obtain ⟨h1, h2, h3⟩ := consecutiveRun_spec m bound (k + 1)
    by_cases hk : k ∈ m
    · have hr : consecutiveRun m k (bound + 1) = consecutiveRun m (k + 1) bound + 1 := by
        simp [consecutiveRun, hk]
      rw [hr]
      refine ⟨by omega, ?_, ?_⟩
      · intro i hi
        cases i with
        | zero => simpa using hk
        | succ j =>
          have := h2 j (by omega)
          rwa [show k + (j + 1) = k + 1 + j by omega]
      · intro hlt
        have := h3 (by omega)
        rwa [show k + (consecutiveRun m (k + 1) bound + 1)
          = k + 1 + consecutiveRun m (k + 1) bound by omega]
    · have hr : consecutiveRun m k (bound + 1) = 0 := by simp [consecutiveRun, hk]
      rw [hr]
      exact ⟨by omega, fun i hi => absurd hi (by omega), fun _ => by simpa using hk⟩

/-- The number `maximalRun` is the length of the maximal run of consecutive keys from
`next_commit_seq` on: these keys are present, the key after them is absent. -/
theorem maximalRun_spec (e : OrderEngine D) :
    maximalRun e ≤ e.ready.keys.card
    ∧ (∀ i : Nat, i < maximalRun e → e.next_commit_seq + i ∈ e.ready)
    ∧ e.next_commit_seq + maximalRun e ∉ e.ready := by
  obtain ⟨h1, h2, h3⟩ := consecutiveRun_spec e.ready e.ready.keys.card e.next_commit_seq
  refine ⟨h1, h2, ?_⟩
  by_cases hlt : maximalRun e < e.ready.keys.card
  · exact h3 hlt
  · have heq : maximalRun e = e.ready.keys.card := le_antisymm h1 (by omega)
    intro hmem
    have hsub : Finset.Ico e.next_commit_seq (e.next_commit_seq + maximalRun e)
        ⊆ e.ready.keys := by
      intro x hx
      rw [Finset.mem_Ico] at hx
      have := h2 (x - e.next_commit_seq) (by unfold maximalRun at hx; omega)
      rw [show e.next_commit_seq + (x - e.next_commit_seq) = x by omega] at this
      exact Finmap.mem_keys.2 this
    have hcard : e.ready.keys.card
        ≤ (Finset.Ico e.next_commit_seq (e.next_commit_seq + maximalRun e)).card := by
      rw [Nat.card_Ico]
      omega
    have hset := Finset.eq_of_subset_of_card_le hsub hcard
    have hin : e.next_commit_seq + maximalRun e
        ∈ Finset.Ico e.next_commit_seq (e.next_commit_seq + maximalRun e) := by
      rw [hset]
      exact Finmap.mem_keys.2 hmem
    rw [Finset.mem_Ico] at hin
    omega

/-- On a buffer holding the keys `next_commit_seq, ..., next_commit_seq + n - 1` and not
the key after them, the loop makes `n` passes and leaves: it commits `n` orders, moves the
frontier by `n`, removes `n` entries, and more allowed passes change nothing. -/
theorem commit_loop_run :
    ∀ (n : Nat) (e : OrderEngine D) (fuel : Nat),
      (∀ i : Nat, i < n → e.next_commit_seq + i ∈ e.ready) →
      e.next_commit_seq + n ∉ e.ready → n ≤ fuel →
      OrderEngine.commit_loop fuel e = OrderEngine.commit_loop n e
      ∧ (OrderEngine.commit_loop n e).next_commit_seq = e.next_commit_seq + n
      ∧ (OrderEngine.commit_loop n e).committed.length = e.committed.length + n
      ∧ (OrderEngine.commit_loop n e).ready.keys.card + n = e.ready.keys.card
  | 0, e, fuel, _, hout, _ => by
    have hl : e.ready.lookup e.next_commit_seq = none :=
      Finmap.lookup_eq_none.2 (by simpa using hout)
    rw [commit_loop_none fuel e hl, commit_loop_none 0 e hl]
    simp
  | n + 1, e, fuel, hin, hout, hfuel => by
    obtain ⟨f, rfl⟩ : ∃ f, fuel = f + 1 := ⟨fuel - 1, by omega⟩
    have h0 : e.next_commit_seq ∈ e.ready := by simpa using hin 0 (by omega)
    obtain ⟨o, ho⟩ := Finmap.mem_iff.1 h0
    have hin1 : ∀ i : Nat, i < n →
        (e.commit_one o).next_commit_seq + i ∈ (e.commit_one o).ready := by
      intro i hi
      simp only [OrderEngine.commit_one]
      refine Finmap.mem_erase.2 ⟨by omega, ?_⟩
      have := hin (i + 1) (by omega)
      rwa [show e.next_commit_seq + 1 + i = e.next_commit_seq + (i + 1) by omega]
    have hout1 : (e.commit_one o).next_commit_seq + n ∉ (e.commit_one o).ready := by
      simp only [OrderEngine.commit_one]
      intro hmem
      apply hout
      have := (Finmap.mem_erase.1 hmem).2
      rwa [show e.next_commit_seq + 1 + n = e.next_commit_seq + (n + 1) by omega] at this
    obtain ⟨h1, h2, h3, h4⟩ := commit_loop_run n (e.commit_one o) f hin1 hout1 (by omega)
    have hc := commit_one_card e o ho
    rw [commit_loop_some f e o ho, commit_loop_some n e o ho]
    refine ⟨h1, ?_, ?_, by omega⟩
    · rw [h2]; simp only [OrderEngine.commit_one]; omega
    · rw [h3]; simp only [OrderEngine.commit_one, List.length_append, List.length_singleton]
      omega

/-! ## Calls that leave the aggregate state alone -/

/-- The entry under any key after `emplace`. -/
theorem lookup_emplace_eq (m : Finmap (fun _ : Nat => Order D)) (k k' : Nat) (v : Order D) :
    (emplace m k v).lookup k' = if k' = k then some ((m.lookup k).getD v) else m.lookup k' := by
  by_cases hk : k' = k
  · subst hk
    rw [if_pos rfl]
    by_cases hm : k' ∈ m
    · rw [emplace_present m k' v hm]
      obtain ⟨x, hx⟩ := Finmap.mem_iff.1 hm
      rw [hx]; rfl
    · unfold emplace
      rw [if_neg hm, Finmap.lookup_insert, Finmap.lookup_eq_none.2 hm]; rfl
  · rw [if_neg hk]
    unfold emplace
    split
    · rfl
    · exact Finmap.lookup_insert_of_ne _ hk

/-- An entry of the buffer survives `emplace`. -/
theorem lookup_emplace_keep (m : Finmap (fun _ : Nat => Order D)) (k k' : Nat)
    (v x : Order D) (h : m.lookup k' = some x) : (emplace m k v).lookup k' = some x := by
  rw [lookup_emplace_eq]
  split
  · next hk => subst hk; rw [h]; rfl
  · exact h

/-- The engine with one more call counted and the order put into the buffer: the state
in which `on_processed` enters the commit loop. -/
theorem inv_emplace (e : OrderEngine D) (o : Order D) (h : Inv e) :
    Inv { e with processed := e.processed + 1, ready := emplace e.ready o.seq o } where
  pos := h.pos
  seqs := h.seqs
  keyed := by
    intro k o' hk
    rcases lookup_emplace hk with h1 | ⟨h1, h2⟩
    · exact h.keyed k o' h1
    · rw [h1, h2]
  total := h.total
  position := h.position

/-- When the buffer has no entry for `next_commit_seq` and the order's `seq` is another
number, `on_processed` counts the call, puts the order into the buffer and commits
nothing. -/
theorem on_processed_idle (e : OrderEngine D) (o : Order D)
    (hx : e.ready.lookup e.next_commit_seq = none) (hk : o.seq ≠ e.next_commit_seq) :
    e.on_processed o
      = { e with processed := e.processed + 1, ready := emplace e.ready o.seq o } := by
  unfold OrderEngine.on_processed OrderEngine.try_commit_locked
  apply commit_loop_none
  show (emplace e.ready o.seq o).lookup e.next_commit_seq = none
  rw [lookup_emplace_eq, if_neg (Ne.symm hk)]
  exact hx

/-- A run of calls in two parts. -/
theorem run_append (e : OrderEngine D) (l1 l2 : List (Order D)) :
    e.run (l1 ++ l2) = (e.run l1).run l2 := by
  simp [OrderEngine.run, List.foldl_append]

/-- A run of calls neither reads nor writes the two sequencer counters. -/
theorem run_counters (a b : Nat) (more : List (Order D)) :
    ∀ e : OrderEngine D, (e.withCounters a b).run more = (e.run more).withCounters a b := by
  induction more with
  | nil => intro e; rfl
  | cons o more ih =>
    intro e
    show ((e.withCounters a b).on_processed o).run more = _
    rw [on_processed_counters, ih]
    rfl

/-- A run of `on_processed` calls from a reachable state is the run of all the
`on_processed` calls from a fresh engine, with the sequencer counters of the state. -/
theorem reach_run (cs : List (EngineCall D)) (more : List (Order D)) :
    (OrderEngine.reach cs).run more
      = ((OrderEngine.fresh : OrderEngine D).run (processedOf cs ++ more)).withCounters
          (1 + assignedOf cs) (assignedOf cs) := by
  rw [reach_eq, run_counters, run_append]

/-- The invariant holds along every run from a state in which it holds. -/
theorem inv_run_from (more : List (Order D)) :
    ∀ e : OrderEngine D, Inv e → Inv (e.run more) := by
  induction more with
  | nil => intro e h; exact h
  | cons o more ih => intro e h; exact ih _ (inv_on_processed e o h)

/-- An entry of the buffer below the commit frontier stays where it is, whatever calls
follow. -/
theorem stale_stays (k : Nat) (x : Order D) (more : List (Order D)) :
    ∀ e : OrderEngine D, k < e.next_commit_seq → e.ready.lookup k = some x →
      k < (e.run more).next_commit_seq ∧ (e.run more).ready.lookup k = some x := by
  induction more with
  | nil => intro e h1 h2; exact ⟨h1, h2⟩
  | cons o more ih =>
    intro e h1 h2
    have hstep : k < (e.on_processed o).next_commit_seq
        ∧ (e.on_processed o).ready.lookup k = some x := by
      unfold OrderEngine.on_processed OrderEngine.try_commit_locked
      apply commit_loop_preserves
        (fun e' : OrderEngine D => k < e'.next_commit_seq ∧ e'.ready.lookup k = some x)
      · rintro e' o' ⟨h3, h4⟩ _
        refine ⟨by simp only [OrderEngine.commit_one]; omega, ?_⟩
        simp only [OrderEngine.commit_one]
        rw [Finmap.lookup_erase_ne (by omega)]
        exact h4
      · exact ⟨h1, lookup_emplace_keep _ _ _ _ _ h2⟩
    exact ih _ hstep.1 hstep.2

/-- An entry of the buffer at or beyond the commit frontier stays in the buffer until the
frontier reaches its key, and is then the order committed under that key. -/
theorem pending_outcome (k : Nat) (x : Order D) (more : List (Order D)) :
    ∀ e : OrderEngine D, Inv e →
      ((e.next_commit_seq ≤ k ∧ e.ready.lookup k = some x)
        ∨ (k < e.next_commit_seq ∧ e.committed[k - 1]? = some x)) →
      ((e.run more).next_commit_seq ≤ k ∧ (e.run more).ready.lookup k = some x)
        ∨ (k < (e.run more).next_commit_seq ∧ (e.run more).committed[k - 1]? = some x) := by
  induction more with
  | nil => intro e _ h; exact h
  | cons o more ih =>
    intro e hi h
    have hstep : Inv (e.on_processed o)
        ∧ (((e.on_processed o).next_commit_seq ≤ k
              ∧ (e.on_processed o).ready.lookup k = some x)
          ∨ (k < (e.on_processed o).next_commit_seq
              ∧ (e.on_processed o).committed[k - 1]? = some x)) := by
      unfold OrderEngine.on_processed OrderEngine.try_commit_locked
      apply commit_loop_preserves
        (fun e' : OrderEngine D => Inv e'
          ∧ ((e'.next_commit_seq ≤ k ∧ e'.ready.lookup k = some x)
            ∨ (k < e'.next_commit_seq ∧ e'.committed[k - 1]? = some x)))
      · rintro e' o' ⟨hi', hc⟩ ho'
        refine ⟨inv_commit_one e' o' hi' ho', ?_⟩
        have hlen := hi'.length_committed
        rcases hc with ⟨h1, h2⟩ | ⟨h1, h2⟩
        · by_cases hk : e'.next_commit_seq = k
          · right
            rw [hk, h2] at ho'
            have hox : x = o' := Option.some.inj ho'
            refine ⟨by simp only [OrderEngine.commit_one]; omega, ?_⟩
            simp only [OrderEngine.commit_one]
            rw [show k - 1 = e'.committed.length by omega, hox]
            exact List.getElem?_concat_length _ _
          · left
            refine ⟨by simp only [OrderEngine.commit_one]; omega, ?_⟩
            simp only [OrderEngine.commit_one]
            rw [Finmap.lookup_erase_ne (Ne.symm hk)]
            exact h2
        · right
          refine ⟨by simp only [OrderEngine.commit_one]; omega, ?_⟩
          simp only [OrderEngine.commit_one]
          obtain ⟨hlt, _⟩ := List.getElem?_eq_some_iff.1 h2
          rw [List.getElem?_append_left hlt]
          exact h2
      · refine ⟨inv_emplace e o hi, ?_⟩
        rcases h with ⟨h1, h2⟩ | h
        · exact Or.inl ⟨h1, lookup_emplace_keep _ _ _ _ _ h2⟩
        · exact Or.inr h
    exact ih _ hstep.1 hstep.2

/-- The commit loop takes states with the same aggregate state and the same buffer from
the frontier on to such states. -/
theorem aggEq_commit_loop :
    ∀ (fuel : Nat) (e e' : OrderEngine D), AggEq e e' →
      AggEq (OrderEngine.commit_loop fuel e) (OrderEngine.commit_loop fuel e')
  | 0, e, e', h => h
  | fuel + 1, e, e', h => by
    have hl : e.ready.lookup e.next_commit_seq = e'.ready.lookup e'.next_commit_seq := by
      rw [← h.next]
      exact h.buffer _ (le_refl _)
    cases ho : e.ready.lookup e.next_commit_seq with
    | none =>
      rw [commit_loop_none _ e ho, commit_loop_none _ e' (hl ▸ ho)]
      exact h
    | some o =>
      rw [commit_loop_some _ e o ho, commit_loop_some _ e' o (hl ▸ ho)]
      apply aggEq_commit_loop fuel
      exact
        { next := by simp only [OrderEngine.commit_one, h.next]
          total := by simp only [OrderEngine.commit_one, h.total]
          net := by simp only [OrderEngine.commit_one, h.net]
          log := by simp only [OrderEngine.commit_one, h.log]
          buffer := by
            intro k hk
            simp only [OrderEngine.commit_one] at hk ⊢
            rw [Finmap.lookup_erase_ne (by omega), ← h.next,
              Finmap.lookup_erase_ne (by omega)]
            exact h.buffer k (by omega) }

/-- The function `on_processed`, called with the same order, takes states with the same
aggregate state and the same buffer from the frontier on to such states. -/
theorem aggEq_on_processed (e e' : OrderEngine D) (o : Order D) (h : AggEq e e') :
    AggEq (e.on_processed o) (e'.on_processed o) := by
  have hbase : AggEq
      { e with processed := e.processed + 1, ready := emplace e.ready o.seq o }
      { e' with processed := e'.processed + 1, ready := emplace e'.ready o.seq o } :=
    { next := h.next
      total := h.total
      net := h.net
      log := h.log
      buffer := by
        intro k hk
        show (emplace e.ready o.seq o).lookup k = (emplace e'.ready o.seq o).lookup k
        rw [lookup_emplace_eq, lookup_emplace_eq]
        by_cases hko : k = o.seq
        · rw [if_pos hko, if_pos hko, h.buffer o.seq (hko ▸ hk)]
        · rw [if_neg hko, if_neg hko]
          exact h.buffer k hk }
  have h1 := commit_loop_fuel
    (max (emplace e.ready o.seq o).keys.card (emplace e'.ready o.seq o).keys.card)
    { e with processed := e.processed + 1, ready := emplace e.ready o.seq o }
    (le_max_left _ _)
  have h2 := commit_loop_fuel
    (max (emplace e.ready o.seq o).keys.card (emplace e'.ready o.seq o).keys.card)
    { e' with processed := e'.processed + 1, ready := emplace e'.ready o.seq o }
    (le_max_right _ _)
  have hloop := aggEq_commit_loop
    (max (emplace e.ready o.seq o).keys.card (emplace e'.ready o.seq o).keys.card) _ _ hbase
  rw [h1, h2] at hloop
  exact hloop

/-- Runs of the same calls take states with the same aggregate state and the same buffer
from the frontier on to such states. -/
theorem aggEq_run (more : List (Order D)) :
    ∀ e e' : OrderEngine D, AggEq e e' → AggEq (e.run more) (e'.run more) := by
  induction more with
  | nil => intro e e' h; exact h
  | cons o more ih => intro e e' h; exact ih _ _ (aggEq_on_processed e e' o h)

/-- A call whose `seq` is already a key of the buffer or lies below the commit frontier,
made when the buffer has no entry for `next_commit_seq`, leaves the aggregate state and
the buffer from the frontier on as they were. -/
theorem aggEq_idle (e : OrderEngine D) (o : Order D)
    (hx : e.ready.lookup e.next_commit_seq = none)
    (hdup : o.seq ∈ e.ready ∨ o.seq < e.next_commit_seq) :
    AggEq (e.on_processed o) e := by
  have hne : o.seq ≠ e.next_commit_seq := by
    rcases hdup with h | h
    · intro heq
      rw [heq] at h
      exact (Finmap.lookup_eq_none.1 hx) h
    · omega
  rw [on_processed_idle e o hx hne]
  exact
    { next := rfl
      total := rfl
      net := rfl
      log := rfl
      buffer := by
        intro k hk
        show (emplace e.ready o.seq o).lookup k = e.ready.lookup k
        rw [lookup_emplace_eq]
        split
        · next hko =>
          subst hko
          rcases hdup with h | h
          · obtain ⟨x, hx'⟩ := Finmap.mem_iff.1 h
            rw [hx']; rfl
          · exact absurd (show e.next_commit_seq ≤ o.seq from hk) (by omega)
        · rfl }

/-- States with the same aggregate state have the same `aggregate`. -/
theorem AggEq.aggregate_eq {e e' : OrderEngine D} (h : AggEq e e') :
    e.aggregate = e'.aggregate := by
  simp only [OrderEngine.aggregate, h.next, h.total, h.net, h.log]

/-- A repeated `on_processed` call with an order passed before leaves the aggregate state
of every later state as it is without the repeated call. -/
theorem repeated_call_aggregate (pre mid post : List (Order D)) (o : Order D) :
    ((OrderEngine.fresh : OrderEngine D).run (pre ++ o :: mid ++ o :: post)).aggregate
      = ((OrderEngine.fresh : OrderEngine D).run (pre ++ o :: mid ++ post)).aggregate := by
  have ht := traced_run (D := D) (pre ++ o :: mid)
  have hx := run_exit (D := D) (pre ++ o :: mid)
  have hdup : o.seq ∈ ((OrderEngine.fresh : OrderEngine D).run (pre ++ o :: mid)).ready
      ∨ o.seq < ((OrderEngine.fresh : OrderEngine D).run (pre ++ o :: mid)).next_commit_seq := by
    by_cases hlt : o.seq
        < ((OrderEngine.fresh : OrderEngine D).run (pre ++ o :: mid)).next_commit_seq
    · exact Or.inr hlt
    · exact Or.inl (ht.held o (by simp) (by omega))
  have h1 := aggEq_idle _ o hx hdup
  have h2 := aggEq_run post _ _ h1
  rw [run_append, run_append _ (pre ++ o :: mid) post]
  exact h2.aggregate_eq

/-- The invariant holds in every reachable state. -/
theorem reach_inv (cs : List (EngineCall D)) : Inv (OrderEngine.reach cs) := by
  have h : Inv ((OrderEngine.fresh : OrderEngine D).run (processedOf cs)) := inv_run _
  rw [reach_eq]
  exact ⟨h.pos, h.seqs, h.keyed, h.total, h.position⟩

/-- In every reachable state the buffer has no entry for `next_commit_seq_`. -/
theorem reach_exit (cs : List (EngineCall D)) :
    (OrderEngine.reach cs).ready.lookup (OrderEngine.reach cs).next_commit_seq = none := by
  rw [reach_eq]
  exact run_exit (processedOf cs)

/-- The sequence numbers of the entries appended to the log between two states that
satisfy the invariant are consecutive from the earlier frontier on. -/
theorem suffix_seqs (e e' : OrderEngine D) (suffix : List (Order D)) (h : Inv e) (h' : Inv e')
    (hlog : e'.committed = e.committed ++ suffix)
    (hnext : e'.next_commit_seq = e.next_commit_seq + suffix.length) :
    suffix.map (fun o => o.seq) = List.range' e.next_commit_seq suffix.length := by
  have hp := h.pos
  have h1 := h'.seqs
  rw [hlog, List.map_append, h.seqs, hnext,
    show e.next_commit_seq + suffix.length - 1 = suffix.length + (e.next_commit_seq - 1) by omega,
    ← List.range'_append_1,
    show 1 + (e.next_commit_seq - 1) = e.next_commit_seq by omega] at h1
  exact List.append_cancel_left h1

/-! ## Further claims on the commit engine -/

/-- C13 (projection `committed_sample`). For every engine state and every `n`,
`committed_sample(n)` is the first `min(n, count)` entries of the committed log in log
order: it has `min(n, count)` entries, entry `i` is entry `i` of the log, and it is empty
when `n == 0` or nothing is committed. The method is `const`: it is a function of the
state and yields no state of its own. -/
theorem C13_committed_sample (e : OrderEngine D) (n : Nat) :
    e.committed_sample n = e.committed.take n
    ∧ (e.committed_sample n).length = min n e.committed.length
    ∧ e.committed_sample n <+: e.committed
    ∧ (∀ i : Nat, (e.committed_sample n)[i]?
        = if i < min n e.committed.length then e.committed[i]? else none)
    ∧ e.committed_sample 0 = []
    ∧ (e.committed = [] → e.committed_sample n = []) := by
  have h1 : e.committed_sample n = e.committed.take n := by
    unfold OrderEngine.committed_sample
    rcases Nat.le_total n e.committed.length with h | h
    · rw [Nat.min_eq_left h]
    · rw [Nat.min_eq_right h, List.take_of_length_le (le_refl _), List.take_of_length_le h]
  refine ⟨h1, ?_, ?_, ?_, ?_, ?_⟩
  · rw [h1, List.length_take]
  · rw [h1]; exact List.take_prefix n e.committed
  · intro i
    rw [h1, List.getElem?_take]
    by_cases hi : i < min n e.committed.length
    · rw [if_pos hi, if_pos (by omega)]
    · rw [if_neg hi]
      by_cases hn : i < n
      · rw [if_pos hn]
        exact List.getElem?_eq_none (by omega)
      · rw [if_neg hn]
  · simp [OrderEngine.committed_sample]
  · intro hc
    rw [h1, hc]
    simp

/-- C16 (holding-buffer invariant). For calls on a fresh engine with pairwise distinct
`seq` values, all at least 1, after each call (after the first `n` calls, for every `n`):
every key of the holding buffer is strictly greater than `next_commit_seq`, the buffer has
no entry for `next_commit_seq`, whose order has not been passed to `on_processed` yet, and
no held order is in the committed log. -/
theorem C16_holding_buffer (calls : List (Order D))
    (hnd : (calls.map (fun o => o.seq)).Nodup) (hpos : ∀ o ∈ calls, 1 ≤ o.seq) (n : Nat) :
    (∀ k ∈ ((OrderEngine.fresh : OrderEngine D).run (calls.take n)).ready,
        ((OrderEngine.fresh : OrderEngine D).run (calls.take n)).next_commit_seq < k)
    ∧ ((OrderEngine.fresh : OrderEngine D).run (calls.take n)).next_commit_seq
        ∉ ((OrderEngine.fresh : OrderEngine D).run (calls.take n)).ready
    ∧ ((OrderEngine.fresh : OrderEngine D).run (calls.take n)).next_commit_seq
        ∉ (calls.take n).map (fun o => o.seq)
    ∧ (∀ (k : Nat) (o : Order D),
        ((OrderEngine.fresh : OrderEngine D).run (calls.take n)).ready.lookup k = some o →
        o ∉ ((OrderEngine.fresh : OrderEngine D).run (calls.take n)).committed) := by
  have hnd' : ((calls.take n).map (fun o => o.seq)).Nodup := by
    rw [List.map_take]
    exact hnd.sublist (List.take_sublist n _)
  have hpos' : ∀ o ∈ calls.take n, 1 ≤ o.seq := fun o ho => hpos o (List.mem_of_mem_take ho)
  have habove := buffer_above (calls.take n) hnd' hpos'
  have hx := run_exit (D := D) (calls.take n)
  have hi : Inv ((OrderEngine.fresh : OrderEngine D).run (calls.take n)) := inv_run _
  have ht := traced_run (D := D) (calls.take n)
  have hnot := Finmap.lookup_eq_none.1 hx
  have hstrict : ∀ k ∈ ((OrderEngine.fresh : OrderEngine D).run (calls.take n)).ready,
      ((OrderEngine.fresh : OrderEngine D).run (calls.take n)).next_commit_seq < k := by
    intro k hk
    have h1 := habove k hk
    have h2 : k ≠ ((OrderEngine.fresh : OrderEngine D).run (calls.take n)).next_commit_seq :=
      fun h => hnot (h ▸ hk)
    omega
  refine ⟨hstrict, hnot, ?_, ?_⟩
  · intro hmem
    obtain ⟨o, ho, hs⟩ := List.mem_map.1 hmem
    have := ht.held o ho (by omega)
    rw [hs] at this
    exact hnot this
  · intro k o hk hmem
    have hkey : o.seq = k := hi.keyed k o hk
    have hlt := hstrict k (Finmap.mem_iff.2 ⟨o, hk⟩)
    have := ((hi.mem_committed o.seq).1 (List.mem_map.2 ⟨o, hmem, rfl⟩)).2
    omega

/-- C16 at the calls with `seq` 3, 2, 1: after the first call the buffer holds key 3 and
after the second keys 3 and 2, all above `next_commit_seq == 1`, and the log is empty. -/
theorem C16_holding_buffer_witness :
    ((∀ k ∈ ((OrderEngine.fresh : OrderEngine Int).run ([testC, testB, testA].take 2)).ready,
        ((OrderEngine.fresh : OrderEngine Int).run ([testC, testB, testA].take 2)).next_commit_seq
          < k)
      ∧ ((OrderEngine.fresh : OrderEngine Int).run ([testC, testB, testA].take 2)).ready.keys
          = {2, 3})
    ∧ ((OrderEngine.fresh : OrderEngine Int).run ([testC, testB, testA].take 1)).ready.keys = {3}
    ∧ ((OrderEngine.fresh : OrderEngine Int).run ([testC, testB, testA].take 2)).committed = []
    ∧ ((OrderEngine.fresh : OrderEngine Int).run ([testC, testB, testA].take 3)).ready.keys
        = ∅ :=
  ⟨⟨(C16_holding_buffer [testC, testB, testA] (by decide) (by decide) 2).1, by decide⟩,
    by decide, by decide, by decide⟩

/-- C17 (append-only commit log). For every engine state and every order, the committed
log before `on_processed` is a prefix of the log after it: no entry is removed, moved or
changed; and `next_commit_seq` does not decrease, growing by exactly the number of entries
appended. -/
theorem C17_append_only (e : OrderEngine D) (o : Order D) :
    e.committed <+: (e.on_processed o).committed
    ∧ (e.on_processed o).committed.take e.committed.length = e.committed
    ∧ e.next_commit_seq ≤ (e.on_processed o).next_commit_seq
    ∧ (e.on_processed o).next_commit_seq
        = e.next_commit_seq + ((e.on_processed o).committed.length - e.committed.length) := by
  obtain ⟨suffix, h1, h2⟩ := on_processed_log e o
  refine ⟨⟨suffix, h1.symm⟩, ?_, by omega, ?_⟩
  · rw [h1, List.take_left' rfl]
  · rw [h2, h1, List.length_append]
    omega

/-- C18 (the commit loop ends, with bounded work). For every engine state, with `n` the
length of the maximal run of consecutive keys `next_commit_seq, next_commit_seq + 1, ...`
in the holding buffer (0 when `next_commit_seq` is absent): `try_commit_locked` ends after
`n` passes through its `break` (allowing more passes changes nothing), commits `n` orders
and moves `next_commit_seq` by `n`; every pass removes exactly one entry of the buffer, so
`n` entries in all, and `n` is at most the number of entries. -/
theorem C18_commit_loop_bounded (e : OrderEngine D) :
    (∀ i : Nat, i < maximalRun e → e.next_commit_seq + i ∈ e.ready)
    ∧ e.next_commit_seq + maximalRun e ∉ e.ready
    ∧ maximalRun e ≤ e.ready.keys.card
    ∧ (∀ fuel : Nat, maximalRun e ≤ fuel →
        OrderEngine.commit_loop fuel e = e.try_commit_locked)
    ∧ e.try_commit_locked.ready.lookup e.try_commit_locked.next_commit_seq = none
    ∧ e.try_commit_locked.committed.length = e.committed.length + maximalRun e
    ∧ e.try_commit_locked.next_commit_seq = e.next_commit_seq + maximalRun e
    ∧ e.try_commit_locked.ready.keys.card + maximalRun e = e.ready.keys.card
    ∧ (e.next_commit_seq ∉ e.ready → maximalRun e = 0 ∧ e.try_commit_locked = e)
    ∧ (∀ o : Order D, e.ready.lookup e.next_commit_seq = some o →
        (e.commit_one o).ready = e.ready.erase e.next_commit_seq
        ∧ (e.commit_one o).ready.keys.card + 1 = e.ready.keys.card) := by
  obtain ⟨hle, hin, hout⟩ := maximalRun_spec e
  have htry : e.try_commit_locked = OrderEngine.commit_loop (maximalRun e) e :=
    (commit_loop_run (maximalRun e) e e.ready.keys.card hin hout hle).1
  obtain ⟨_, h2, h3, h4⟩ := commit_loop_run (maximalRun e) e (maximalRun e) hin hout (le_refl _)
  refine ⟨hin, hout, hle, ?_, try_commit_locked_exit e, ?_, ?_, ?_, ?_, ?_⟩
  · intro fuel hf
    rw [htry]
    exact (commit_loop_run (maximalRun e) e fuel hin hout hf).1
  · rw [htry]; exact h3
  · rw [htry]; exact h2
  · rw [htry]; exact h4
  · intro habs
    have h0 : maximalRun e = 0 := by
      by_contra hne
      have := hin 0 (by omega)
      exact habs (by simpa using this)
    refine ⟨h0, ?_⟩
    rw [htry, h0]
    rfl
  · intro o ho
    exact ⟨rfl, commit_one_card e o ho⟩

/-- C18 at a buffer holding the keys 1, 2 and 4 with `next_commit_seq == 1`: the maximal
run has length 2, and `try_commit_locked` commits the orders under 1 and 2 and leaves the
order under 4 in the buffer. -/
theorem C18_commit_loop_bounded_witness :
    maximalRun testHeld = 2
    ∧ testHeld.try_commit_locked.committed = [testA, testB]
    ∧ testHeld.try_commit_locked.ready.keys = {4}
    ∧ testHeld.try_commit_locked.next_commit_seq = 1 + 2 :=
  ⟨by decide, by decide, by decide,
    (C18_commit_loop_bounded testHeld).2.2.2.2.2.2.1.trans (by decide)⟩

/-- C19 (counter conservation). After any sequence of `on_processed` calls on a fresh
engine, `summary()` reports `committed + (entries in the holding buffer) <= processed`,
with `processed` the number of calls; when the calls carry pairwise distinct `seq` values
the two sides are equal. -/
theorem C19_counter_conservation (calls : List (Order D)) :
    let e := (OrderEngine.fresh : OrderEngine D).run calls
    e.summary.committed + e.ready.keys.card ≤ e.summary.processed
    ∧ e.summary.processed = calls.length
    ∧ ((calls.map (fun o => o.seq)).Nodup →
        e.summary.processed = e.summary.committed + e.ready.keys.card) := by
  intro e
  exact ⟨count_run_le calls, (traced_run calls).processed_eq, fun hnd => count_run calls hnd⟩

/-- C19 at four calls with `seq` 2, 2, 1, 1: two orders are committed, one copy is left in
the buffer and `processed` is 4, so the inequality is strict; at the distinct `seq` 3, 1
one order is committed, one is held and `processed` is 2. -/
theorem C19_counter_conservation_witness :
    (((OrderEngine.fresh : OrderEngine Int).run [testB, testB, testA, testA]).summary.committed = 2
      ∧ ((OrderEngine.fresh : OrderEngine Int).run
          [testB, testB, testA, testA]).ready.keys.card = 1
      ∧ ((OrderEngine.fresh : OrderEngine Int).run [testB, testB, testA, testA]).summary.processed
          = 4)
    ∧ ((OrderEngine.fresh : OrderEngine Int).run [testC, testA]).summary.processed
        = ((OrderEngine.fresh : OrderEngine Int).run [testC, testA]).summary.committed
          + ((OrderEngine.fresh : OrderEngine Int).run [testC, testA]).ready.keys.card :=
  ⟨by decide, (C19_counter_conservation [testC, testA]).2.2 (by decide)⟩

/-! ## Shutdown of the queue and of the pool -/

/-- A pass of the worker loop that pops a task runs it and goes on. -/
theorem worker_loop_task {T : Type} (fuel : Nat) (p : ThreadPool T) (task : T)
    (q' : BoundedQueue T) (h : p.tasks.pop = some (some task, q')) :
    ThreadPool.worker_loop (fuel + 1) p
      = ThreadPool.worker_loop fuel { p with tasks := q', ran := p.ran ++ [task] } := by
  simp [ThreadPool.worker_loop, h]

/-- A pass of the worker loop that pops the empty sentinel leaves the loop. -/
theorem worker_loop_end {T : Type} (fuel : Nat) (p : ThreadPool T) (q' : BoundedQueue T)
    (h : p.tasks.pop = some (none, q')) :
    ThreadPool.worker_loop (fuel + 1) p = { p with tasks := q' } := by
  simp [ThreadPool.worker_loop, h]

/-- On a closed queue the loop of a worker runs the queued tasks front to back and leaves
on the empty sentinel, within one pass more than there are tasks. -/
theorem worker_loop_closed {T : Type} :
    ∀ (l : List T) (p : ThreadPool T), p.tasks.q = l → p.tasks.closed = true →
      ThreadPool.worker_loop (l.length + 1) p
        = { p with tasks := { p.tasks with q := [] }, ran := p.ran ++ l }
  | [], p, hq, hc => by
    have ht : ({ p.tasks with q := [] } : BoundedQueue T) = p.tasks := by
      rw [← hq]
    rw [List.length_nil, worker_loop_end 0 p p.tasks (pop_closed_nil p.tasks hc hq), ht]
    simp
  | task :: rest, p, hq, hc => by
    rw [List.length_cons, worker_loop_task _ p task _ (pop_cons p.tasks task rest hq)]
    refine (worker_loop_closed rest
      { p with tasks := { p.tasks with q := rest }, ran := p.ran ++ [task] } rfl hc).trans ?_
    simp

/-- The first `stop()` on a pool with workers: the flag is set, the queue is closed and
empty, and the tasks that were queued have been run in queue order. -/
theorem stop_drains {T : Type} (p : ThreadPool T) (hs : p.stopped = false)
    (hw : p.workers ≠ 0) (hj : p.joined = false) :
    p.stop = { p with stopped := true
                      joined := true
                      tasks := { p.tasks with q := [], closed := true }
                      ran := p.ran ++ p.tasks.q } := by
  have hloop := worker_loop_closed p.tasks.close.q
    { p with stopped := true, tasks := p.tasks.close } rfl rfl
  rw [hj] at hloop
  unfold ThreadPool.stop
  simp only [hs, Bool.false_eq_true, if_false, hw, hj, or_self]
  rw [hloop]
  rfl

/-- Method `stop` on a pool whose flag is set changes nothing. -/
theorem stop_stopped {T : Type} (p : ThreadPool T) (h : p.stopped = true) : p.stop = p := by
  simp [ThreadPool.stop, h]

/-- The worker loop leaves the `stopped_` flag alone. -/
theorem worker_loop_stopped {T : Type} :
    ∀ (fuel : Nat) (p : ThreadPool T), (ThreadPool.worker_loop fuel p).stopped = p.stopped
  | 0, p => rfl
  | fuel + 1, p => by
    cases hp : p.tasks.pop with
    | none => simp [ThreadPool.worker_loop, hp]
    | some r =>
      obtain ⟨x, q'⟩ := r
      cases x with
      | none => rw [worker_loop_end fuel p q' hp]
      | some task => rw [worker_loop_task fuel p task q' hp, worker_loop_stopped fuel]

/-- After `stop` the flag is set. -/
theorem stopped_stop {T : Type} (p : ThreadPool T) : p.stop.stopped = true := by
  by_cases h : p.stopped = true
  · rw [stop_stopped p h]; exact h
  · have hs : p.stopped = false := by simpa using h
    unfold ThreadPool.stop
    simp only [hs, Bool.false_eq_true, if_false]
    split
    · rfl
    · exact worker_loop_stopped _ _

/-- C11 (idempotent shutdown). For every queue state `close()` applied twice gives the
state `close()` gives once: `closed` is true, the contents and the capacity are unchanged;
on a closed queue `close()` changes nothing, and no `push`, `pop` or `close` takes `closed`
back to false. For every pool state in which `stopped_` is set `stop()` changes nothing,
so a second `stop()` changes nothing: the queue is not closed again and nothing is
joined. -/
theorem C11_idempotent_shutdown {T : Type} (s : BoundedQueue T) (p : ThreadPool T) :
    s.close.close = s.close
    ∧ s.close.closed = true ∧ s.close.q = s.q ∧ s.close.cap = s.cap
    ∧ (s.closed = true → s.close = s)
    ∧ (∀ (h : QueueTrace T) (op : QueueOp T), h.state.closed = true →
        (h.step op).state.closed = true)
    ∧ (p.stopped = true → p.stop = p)
    ∧ p.stop.stop = p.stop
    ∧ p.stop.stopped = true := by
  refine ⟨rfl, rfl, rfl, rfl, ?_, ?_, stop_stopped p, stop_stopped _ (stopped_stop p),
    stopped_stop p⟩
  · intro hc
    cases s
    simp only [BoundedQueue.close] at hc ⊢
    rw [hc]
  · intro h op hc
    cases op with
    | push item =>
      rw [step_push, if_pos hc]
      exact hc
    | pop =>
      rw [step_pop]
      split
      · exact hc
      · exact hc
    | close => rfl

/-- C11 at a pool with two workers and the tasks 5, 6 queued: the first `stop()` sets the
flag, closes the queue and lets the workers run 5 and 6; the second `stop()` returns the
same state. On its queue, `close()` twice is `close()` once. -/
theorem C11_idempotent_shutdown_witness :
    testPool.stop
        = { tasks := { cap := 4, q := [], closed := true }, workers := 2, joined := true,
            stopped := true, ran := [5, 6] }
    ∧ testPool.stop.stop = testPool.stop
    ∧ testPool.tasks.close.close = { cap := 4, q := [5, 6], closed := true } :=
  ⟨by decide, (C11_idempotent_shutdown testPool.tasks testPool).2.2.2.2.2.2.2.1, by decide⟩

/-- C12 (submit after stop). In every pool state in which `stopped_` is set, so in every
state `stop()` returns, `submit` returns `false` and leaves the pool as it was: the task
is not enqueued and not run. On a pool that is not stopped `submit` returns what `push` on
the task queue returns, changes only the task queue, as that `push` does, and blocks when
that `push` blocks. -/
theorem C12_submit_after_stop {T : Type} (p : ThreadPool T) (task : T) :
    (p.stopped = true → p.submit task = some (false, p))
    ∧ p.stop.submit task = some (false, p.stop)
    ∧ (p.stopped = false →
        p.submit task = (p.tasks.push task).map (fun r => (r.1, { p with tasks := r.2 })))
    ∧ (p.stopped = false →
        (p.submit task).map Prod.fst = (p.tasks.push task).map Prod.fst) := by
  have h1 : ∀ q : ThreadPool T, q.stopped = true → q.submit task = some (false, q) := by
    intro q hq
    simp [ThreadPool.submit, hq]
  have h3 : p.stopped = false →
      p.submit task = (p.tasks.push task).map (fun r => (r.1, { p with tasks := r.2 })) := by
    intro hs
    unfold ThreadPool.submit
    simp only [hs, Bool.false_eq_true, if_false]
    cases p.tasks.push task with
    | none => rfl
    | some r => rfl
  refine ⟨h1 p, h1 _ (stopped_stop p), h3, ?_⟩
  intro hs
  rw [h3 hs]
  cases p.tasks.push task with
  | none => rfl
  | some r => rfl

/-- C12 at a pool with two workers, capacity 4 and the tasks 5, 6 queued: before `stop()`
the task 7 is accepted and queued behind them; after `stop()` it is rejected and the pool
keeps its state, in which only the tasks 5 and 6 have been run. -/
theorem C12_submit_after_stop_witness :
    testPool.submit 7 = some (true, { tasks := { cap := 4, q := [5, 6, 7] }, workers := 2 })
    ∧ testPool.stop.submit 7
        = some (false,
            { tasks := { cap := 4, q := [], closed := true }, workers := 2, joined := true,
              stopped := true, ran := [5, 6] }) :=
  ⟨by decide, ((C12_submit_after_stop testPool 7).2.1).trans (by decide)⟩

/-! ## Repeated, far-future and stale calls -/

/-- C14, as amended (repeated call). A repeated `on_processed` call with the same order
does not change the aggregate state: for every sequence of calls on a fresh engine that
passes an order a second time, `next_commit_seq`, `total_notional`, `net_position` and the
committed log are those of the sequence without the second call; `processed` is one
higher. -/
theorem C14_repeated_call_aggregate (pre mid post : List (Order D)) (o : Order D) :
    ((OrderEngine.fresh : OrderEngine D).run (pre ++ o :: mid ++ o :: post)).aggregate
      = ((OrderEngine.fresh : OrderEngine D).run (pre ++ o :: mid ++ post)).aggregate
    ∧ ((OrderEngine.fresh : OrderEngine D).run (pre ++ o :: mid ++ o :: post)).summary.processed
      = ((OrderEngine.fresh : OrderEngine D).run (pre ++ o :: mid ++ post)).summary.processed
        + 1 := by
  refine ⟨repeated_call_aggregate pre mid post o, ?_⟩
  have h1 := (traced_run (D := D) (pre ++ o :: mid ++ o :: post)).processed_eq
  have h2 := (traced_run (D := D) (pre ++ o :: mid ++ post)).processed_eq
  simp only [OrderEngine.summary, h1, h2, List.length_append, List.length_cons]
  omega

/-- C14 as stated fails: no sequence of calls on a fresh engine with a repeated call of the
same order has an aggregate state other than that of the sequence without the repeated
call. So for the calls `a, a` against `a`, and `b, b, a` against `b, a`, with the orders
of the determinism test. -/
theorem C14_repeated_call_counterexample :
    ((OrderEngine.fresh : OrderEngine Int).run [testA, testA]).aggregate
        = ((OrderEngine.fresh : OrderEngine Int).run [testA]).aggregate
    ∧ ((OrderEngine.fresh : OrderEngine Int).run [testB, testB, testA]).aggregate
        = ((OrderEngine.fresh : OrderEngine Int).run [testB, testA]).aggregate
    ∧ ¬ ∃ (pre mid post : List (Order Int)) (o : Order Int),
        ((OrderEngine.fresh : OrderEngine Int).run (pre ++ o :: mid ++ o :: post)).aggregate
          ≠ ((OrderEngine.fresh : OrderEngine Int).run (pre ++ o :: mid ++ post)).aggregate := by
  refine ⟨by decide, by decide, ?_⟩
  rintro ⟨pre, mid, post, o, hne⟩
  exact hne (repeated_call_aggregate pre mid post o)

/-- C15 (far-future arrival). In every reachable state, for an order whose `seq` is
greater than `next_commit_seq` and is not a key of the holding buffer, `on_processed`
leaves `next_commit_seq`, `total_notional`, `net_position` and the committed log as they
were, adds one to `processed` and puts the order into the buffer under its `seq`, changing
no other entry. Whatever calls follow, the order stays in the buffer while
`next_commit_seq` has not passed its `seq`; it is committed, at its place in the log,
exactly when an order of every `seq` from `next_commit_seq` to its own `seq` minus one has
been passed to `on_processed`, which takes a later call for `next_commit_seq` at least. -/
theorem C15_far_future_held (cs : List (EngineCall D)) (o : Order D) :
    let e := OrderEngine.reach cs
    e.next_commit_seq < o.seq → o.seq ∉ e.ready →
      (e.on_processed o).aggregate = e.aggregate
      ∧ (e.on_processed o).processed = e.processed + 1
      ∧ (e.on_processed o).ready = e.ready.insert o.seq o
      ∧ (e.on_processed o).ready.lookup o.seq = some o
      ∧ (∀ k : Nat, k ≠ o.seq → (e.on_processed o).ready.lookup k = e.ready.lookup k)
      ∧ ∀ more : List (Order D),
          (o.seq < ((e.on_processed o).run more).next_commit_seq
            ↔ ∀ s : Nat, e.next_commit_seq ≤ s → s < o.seq →
                s ∈ (processedOf cs ++ more).map (fun x => x.seq))
          ∧ (o.seq < ((e.on_processed o).run more).next_commit_seq →
              e.next_commit_seq ∈ more.map (fun x => x.seq)
              ∧ ((e.on_processed o).run more).committed[o.seq - 1]? = some o)
          ∧ (((e.on_processed o).run more).next_commit_seq ≤ o.seq →
              ((e.on_processed o).run more).ready.lookup o.seq = some o
              ∧ o ∉ ((e.on_processed o).run more).committed) := by
  intro e hfar hnew
  have hinv : Inv e := reach_inv cs
  have hexit : e.ready.lookup e.next_commit_seq = none := reach_exit cs
  have hidle := on_processed_idle e o hexit (by omega)
  have hready : emplace e.ready o.seq o = e.ready.insert o.seq o := by
    unfold emplace
    rw [if_neg hnew]
  have hlook : (e.on_processed o).ready.lookup o.seq = some o := by
    rw [hidle]
    show (emplace e.ready o.seq o).lookup o.seq = some o
    rw [hready, Finmap.lookup_insert]
  refine ⟨by rw [hidle]; rfl, by rw [hidle], by rw [hidle]; exact hready, hlook, ?_, ?_⟩
  · intro k hk
    rw [hidle]
    show (emplace e.ready o.seq o).lookup k = e.ready.lookup k
    rw [lookup_emplace_eq, if_neg hk]
  · intro more
    have hX : Inv ((OrderEngine.fresh : OrderEngine D).run (processedOf cs)) := inv_run _
    have hT := traced_run (D := D) (processedOf cs)
    have hXexit := run_exit (D := D) (processedOf cs)
    have he_next : e.next_commit_seq
        = ((OrderEngine.fresh : OrderEngine D).run (processedOf cs)).next_commit_seq := by
      show (OrderEngine.reach cs).next_commit_seq = _
      rw [reach_eq]; rfl
    have he2 : ((e.on_processed o).run more).next_commit_seq
        = ((OrderEngine.fresh : OrderEngine D).run
            (processedOf cs ++ o :: more)).next_commit_seq := by
      show ((OrderEngine.reach cs).run (o :: more)).next_commit_seq = _
      rw [reach_run]; rfl
    have hnotin : e.next_commit_seq ∉ (processedOf cs).map (fun x => x.seq) := by
      intro hmem
      obtain ⟨x, hx, hs⟩ := List.mem_map.1 hmem
      have := hT.held x hx (by omega)
      rw [hs, he_next] at this
      exact (Finmap.lookup_eq_none.1 hXexit) this
    have hiff : o.seq < ((e.on_processed o).run more).next_commit_seq
        ↔ ∀ s : Nat, e.next_commit_seq ≤ s → s < o.seq →
            s ∈ (processedOf cs ++ more).map (fun x => x.seq) := by
      rw [he2, frontier_iff]
      constructor
      · intro hall s h1 h2
        have hp := hinv.pos
        obtain ⟨x, hx, hs⟩ := List.mem_map.1 (hall s (by omega) (by omega))
        rw [List.mem_append, List.mem_cons] at hx
        rcases hx with hx | hx | hx
        · exact List.mem_map.2 ⟨x, List.mem_append_left _ hx, hs⟩
        · rw [hx] at hs; omega
        · exact List.mem_map.2 ⟨x, List.mem_append_right _ hx, hs⟩
      · intro hall s h1 h2
        by_cases hlow : s < e.next_commit_seq
        · rw [he_next] at hlow
          obtain ⟨x, hx, hs⟩ := List.mem_map.1 ((hX.mem_committed s).2 ⟨h1, hlow⟩)
          exact List.mem_map.2 ⟨x, List.mem_append_left _ (hT.committed_sub x hx), hs⟩
        · by_cases hs : s = o.seq
          · exact List.mem_map.2 ⟨o, by simp, hs.symm⟩
          · obtain ⟨x, hx, hxs⟩ := List.mem_map.1 (hall s (by omega) (by omega))
            rw [List.mem_append] at hx
            rcases hx with hx | hx
            · exact List.mem_map.2 ⟨x, List.mem_append_left _ hx, hxs⟩
            · exact List.mem_map.2
                ⟨x, List.mem_append_right _ (List.mem_cons_of_mem _ hx), hxs⟩
    have hinv1 : Inv (e.on_processed o) := inv_on_processed e o hinv
    have hnext1 : (e.on_processed o).next_commit_seq = e.next_commit_seq := by rw [hidle]
    have hout := pending_outcome o.seq o more (e.on_processed o) hinv1
      (Or.inl ⟨by omega, hlook⟩)
    have hinv2 : Inv ((e.on_processed o).run more) := inv_run_from more _ hinv1
    refine ⟨hiff, ?_, ?_⟩
    · intro hlt
      constructor
      · have := hiff.1 hlt e.next_commit_seq (le_refl _) hfar
        rw [List.map_append, List.mem_append] at this
        rcases this with h | h
        · exact absurd h hnotin
        · exact h
      · rcases hout with ⟨h1, _⟩ | ⟨_, h2⟩
        · omega
        · exact h2
    · intro hle
      rcases hout with ⟨_, h2⟩ | ⟨h1, _⟩
      · refine ⟨h2, ?_⟩
        intro hmem
        have := ((hinv2.mem_committed o.seq).1 (List.mem_map.2 ⟨o, hmem, rfl⟩)).2
        omega
      · omega

/-- C15 at the state after `on_processed` for `seq` 1, with an order of `seq` 4: the call
only counts and holds it; it is still held after the call for `seq` 2 and committed, fourth
in the log, after the calls for `seq` 2 and 3. -/
theorem C15_far_future_held_witness :
    ((OrderEngine.reach [EngineCall.on_processed testA]).on_processed testFar).processed
        = (OrderEngine.reach [EngineCall.on_processed testA]).processed + 1
    ∧ ((OrderEngine.reach [EngineCall.on_processed testA]).on_processed testFar).ready.keys = {4}
    ∧ (((OrderEngine.reach [EngineCall.on_processed testA]).on_processed testFar).run
        [testB]).ready.keys = {4}
    ∧ (((OrderEngine.reach [EngineCall.on_processed testA]).on_processed testFar).run
        [testB, testC]).committed = [testA, testB, testC, testFar] :=
  ⟨(C15_far_future_held [EngineCall.on_processed testA] testFar (by decide) (by decide)).2.1,
    by decide, by decide, by decide⟩

/-- C20 (stale or zero sequence numbers). In every reachable state: an order with `seq` 0
has a `seq` below `next_commit_seq`. For an order whose `seq` is below `next_commit_seq`,
`on_processed` leaves `next_commit_seq`, `total_notional`, `net_position` and the committed
log as they were and adds one to `processed`; whatever calls follow, every entry appended
to the log has a greater `seq`, so the order is never committed, and if its `seq` was not
a key of the buffer it stays in the buffer. For an order whose `seq` is a key of the
buffer, `on_processed` leaves the buffer and the aggregate state as they were and adds one
to `processed`; the order held under that key stays there or is the one committed under
that `seq`. -/
theorem C20_stale_stranded (cs : List (EngineCall D)) (o : Order D) :
    let e := OrderEngine.reach cs
    (o.seq = 0 → o.seq < e.next_commit_seq)
    ∧ (o.seq < e.next_commit_seq →
        (e.on_processed o).aggregate = e.aggregate
        ∧ (e.on_processed o).processed = e.processed + 1
        ∧ ∀ more : List (Order D),
            (∃ suffix : List (Order D),
              ((e.on_processed o).run more).committed = e.committed ++ suffix
              ∧ (∀ x ∈ suffix, o.seq < x.seq) ∧ o ∉ suffix)
            ∧ (o.seq ∉ e.ready → ((e.on_processed o).run more).ready.lookup o.seq = some o))
    ∧ (o.seq ∈ e.ready →
        (e.on_processed o).ready = e.ready
        ∧ (e.on_processed o).aggregate = e.aggregate
        ∧ (e.on_processed o).processed = e.processed + 1
        ∧ ∀ x : Order D, e.ready.lookup o.seq = some x → ∀ more : List (Order D),
            ((e.on_processed o).run more).ready.lookup o.seq = some x
            ∨ (o.seq < ((e.on_processed o).run more).next_commit_seq
                ∧ ((e.on_processed o).run more).committed[o.seq - 1]? = some x)) := by
  intro e
  have hinv : Inv e := reach_inv cs
  have hexit : e.ready.lookup e.next_commit_seq = none := reach_exit cs
  have hp := hinv.pos
  refine ⟨fun h0 => by omega, ?_, ?_⟩
  · intro hlt
    have hidle := on_processed_idle e o hexit (by omega)
    have hinv1 : Inv (e.on_processed o) := inv_on_processed e o hinv
    refine ⟨by rw [hidle]; rfl, by rw [hidle], ?_⟩
    intro more
    constructor
    · obtain ⟨suffix, h1, h2⟩ := run_log more (e.on_processed o)
      have hc1 : (e.on_processed o).committed = e.committed := by rw [hidle]
      have hn1 : (e.on_processed o).next_commit_seq = e.next_commit_seq := by rw [hidle]
      have hseqs := suffix_seqs (e.on_processed o) _ suffix hinv1
        (inv_run_from more _ hinv1) h1 h2
      have habove : ∀ x ∈ suffix, o.seq < x.seq := by
        intro x hx
        have hm : x.seq ∈ suffix.map (fun o => o.seq) := List.mem_map.2 ⟨x, hx, rfl⟩
        rw [hseqs, List.mem_range'_1] at hm
        omega
      refine ⟨suffix, by rw [h1, hc1], habove, ?_⟩
      intro hmem
      exact absurd (habove o hmem) (by omega)
    · intro hnew
      have hlook : (e.on_processed o).ready.lookup o.seq = some o := by
        rw [hidle]
        show (emplace e.ready o.seq o).lookup o.seq = some o
        rw [lookup_emplace_eq, if_pos rfl, Finmap.lookup_eq_none.2 hnew]
        rfl
      have hn1 : (e.on_processed o).next_commit_seq = e.next_commit_seq := by rw [hidle]
      exact (stale_stays o.seq o more (e.on_processed o) (by omega) hlook).2
  · intro hmem
    have hne : o.seq ≠ e.next_commit_seq := by
      intro heq
      rw [heq] at hmem
      exact (Finmap.lookup_eq_none.1 hexit) hmem
    have hidle := on_processed_idle e o hexit hne
    have hinv1 : Inv (e.on_processed o) := inv_on_processed e o hinv
    refine ⟨by rw [hidle]; exact emplace_present _ _ _ hmem, by rw [hidle]; rfl,
      by rw [hidle], ?_⟩
    intro x hx more
    have hlook : (e.on_processed o).ready.lookup o.seq = some x := by
      rw [hidle]
      exact lookup_emplace_keep _ _ _ _ _ hx
    have hn1 : (e.on_processed o).next_commit_seq = e.next_commit_seq := by rw [hidle]
    by_cases hlt : o.seq < e.next_commit_seq
    · exact Or.inl (stale_stays o.seq x more (e.on_processed o) (by omega) hlook).2
    · rcases pending_outcome o.seq x more (e.on_processed o) hinv1
          (Or.inl ⟨by omega, hlook⟩) with ⟨_, h2⟩ | h
      · exact Or.inl h2
      · exact Or.inr h

/-- C20 after the calls for `seq` 1 and 3: a second call for `seq` 1 and a call with `seq`
0 are counted and left in the buffer, and lie there still, uncommitted, after the call for
`seq` 2 has let the log grow to the orders 1, 2, 3; a second order under `seq` 3 is
dropped and the first one is committed. -/
theorem C20_stale_stranded_witness :
    ((OrderEngine.reach [EngineCall.on_processed testA, EngineCall.on_processed testC]).on_processed
        testA).aggregate
      = (OrderEngine.reach [EngineCall.on_processed testA, EngineCall.on_processed testC]).aggregate
    ∧ ((((OrderEngine.reach [EngineCall.on_processed testA,
          EngineCall.on_processed testC]).on_processed testA).on_processed
            { testA with seq := 0 }).run [testB]).committed = [testA, testB, testC]
    ∧ ((((OrderEngine.reach [EngineCall.on_processed testA,
          EngineCall.on_processed testC]).on_processed testA).on_processed
            { testA with seq := 0 }).run [testB]).ready.keys = {0, 1}
    ∧ (((OrderEngine.reach [EngineCall.on_processed testA,
          EngineCall.on_processed testC]).on_processed { testFar with seq := 3 }).run
            [testB]).committed = [testA, testB, testC] :=
  ⟨((C20_stale_stranded [EngineCall.on_processed testA, EngineCall.on_processed testC]
      testA).2.1 (by decide)).1,
    by decide, by decide, by decide⟩

end ConcurrentOrders
